import Mathlib

set_option maxHeartbeats 1000000

/-!
Verification of the Session/Round control flow and the record-processor
I/O helpers of the UFO repository.

The embedding translates `src/ufo/module/sessions/session.py` and
`src/record_processor/utils/__init__.py` into pure Lean functions.
Stateful Python objects become explicit state records; the blocking
terminal prompts and the agent/plan collaborators become explicit
parameters (input streams, state fields); emitted side effects (banner
printing, agent tagging, prompt invocations) are collected in a trace
list so that claims about them can be stated.

`BaseSession` (ufo/module/basic.py), `PlanReader`
(ufo/module/sessions/plan_reader.py), the `interactor` module and the
agent classes are code of the repository that is not under `src/`; the
parts of them this core relies on are modelled from the spec, as marked
in the corresponding doc comments.
-/

namespace UFO

/-- Modelled from the spec: the enumerated agent state tag
("continue host agent" / "continue app agent") attached to an agent
just before a round; `fresh` stands for any state that is not one of
the two continuation markers. -/
inductive AgentTag where
  | fresh
  | continueHost
  | continueApp
deriving DecidableEq

/-- Modelled from the spec: the slice of an agent's state this core
touches — the state tag, the short-term memory, and the blackboard
request history. -/
structure Agent where
  stateTag : AgentTag
  memory : List String
  requests : List String
deriving DecidableEq

/-- Trace of the observable side effects performed by
`create_new_round` / `next_request`: console printing
(`utils.print_with_color`), blocking prompt invocations
(`interactor.first_request` / `interactor.new_request`), agent state
tagging (`set_state`), and agent memory clearing. -/
inductive Eff where
  | printColor (text color : String)
  | firstPrompt
  | newPrompt
  | setHostState
  | setAppState
  | clearMemory
  | clearRequests
deriving DecidableEq

/-- Translation of the `BaseRound` constructor arguments recorded by
`create_new_round` (request, agent, should_evaluate, id); the bound
agent is recorded as a host/app flag, and the shared context reference
is owned by the session and omitted from the per-round record. -/
structure Round where
  request : String
  agentIsHost : Bool
  shouldEvaluate : Bool
  id : Nat
deriving DecidableEq

/-- The two configuration values `session.py` reads from the process-wide
configuration singleton: `EVA_SESSION` and `EVA_ROUND`. -/
structure Config where
  evaSession : Bool
  evaRound : Bool
deriving DecidableEq

/-- Modelled from the spec: the blocking interactor contract
(`first_request() -> text`, `new_request() -> (text, is_complete)`),
reframed as scripted input streams indexed by how many times each
prompt has been invoked so far. -/
structure Interactor where
  firstResp : Nat → String
  newResp : Nat → String × Bool

/-- Modelled from the spec: the welcome banner text printed by the
interactive session before the first-request prompt
(`interactor.WELCOME_TEXT`, not under src/); its exact contents are
irrelevant to every claim. -/
def WELCOME_TEXT : String := "Welcome to use UFO"

/-- State of an interactive `Session`.  `initRequest` translates
`self._init_request`; `finish` and `rounds` translate the
`BaseSession` fields `_finish` and `_rounds` (modelled from the spec:
`BaseSession` is not under src/; the spec gives
`{ finish: bool, total_rounds: int, rounds: mapping(int → Round) }`
with rounds registered by `add_round`).  `firstCount` / `newCount`
count how many scripted interactor responses have been consumed. -/
structure SessionS where
  initRequest : String
  finish : Bool
  rounds : List Round
  hostAgent : Agent
  firstCount : Nat
  newCount : Nat
deriving DecidableEq

/-- Modelled from the spec: `BaseSession.total_rounds` is the number of
registered rounds. -/
def SessionS.totalRounds (s : SessionS) : Nat := s.rounds.length

/-- Modelled from the spec: `BaseSession.is_finished()` reports the
`finish` flag. -/
def SessionS.isFinished (s : SessionS) : Bool := s.finish

/-- Translation of `Session.__init__`: stores the optional command-line
request; the `BaseSession` bookkeeping starts with no rounds and
`finish = False` (modelled from the spec). -/
def Session.initState (request : String) : SessionS :=
  { initRequest := request, finish := false, rounds := [],
    hostAgent := { stateTag := AgentTag.fresh, memory := [], requests := [] },
    firstCount := 0, newCount := 0 }

/-- Translation of `Session.next_request` (session.py lines 162-180):
at round 0 return `_init_request` if non-empty (Python truthiness of a
string), otherwise print the welcome text and block on
`interactor.first_request()`; at later rounds block on
`interactor.new_request()` and set `_finish` when the user signals
completion, still returning the supplied text. -/
def Session.nextRequest (it : Interactor) (s : SessionS) :
    String × SessionS × List Eff :=
  if s.totalRounds = 0 then
    if s.initRequest ≠ "" then
      (s.initRequest, s, [])
    else
      (it.firstResp s.firstCount, { s with firstCount := s.firstCount + 1 },
        [Eff.printColor WELCOME_TEXT "cyan", Eff.firstPrompt])
  else
    let resp := it.newResp s.newCount
    let s1 := { s with newCount := s.newCount + 1 }
    if resp.2 then (resp.1, { s1 with finish := true }, [Eff.newPrompt])
    else (resp.1, s1, [Eff.newPrompt])

/-- Translation of `Session.create_new_round` (session.py lines
135-160): obtain the request via `next_request`, return `None` if the
session is finished, otherwise tag the host agent with the
continue-host state, construct a `BaseRound` with `id = total_rounds`
bound to the host agent, register it and return it. -/
def Session.createNewRound (cfg : Config) (it : Interactor) (s : SessionS) :
    Option Round × SessionS × List Eff :=
  let step := Session.nextRequest it s
  let request := step.1
  let s1 := step.2.1
  let effs := step.2.2
  if s1.isFinished then (none, s1, effs)
  else
    let s2 := { s1 with
      hostAgent := { s1.hostAgent with stateTag := AgentTag.continueHost } }
    let round : Round := { request := request, agentIsHost := true,
                           shouldEvaluate := cfg.evaRound, id := s2.totalRounds }
    (some round, { s2 with rounds := s2.rounds ++ [round] },
      effs ++ [Eff.setHostState])

/-- Modelled from the spec: the shared round-driving loop repeatedly
calls `create_new_round`; `runRounds n` performs `n` consecutive calls
and collects the returned round options. -/
def Session.runRounds (cfg : Config) (it : Interactor) :
    Nat → SessionS → List (Option Round) × SessionS
  | 0, s => ([], s)
  | n + 1, s =>
    let step := Session.createNewRound cfg it s
    let rest := Session.runRounds cfg it n step.2.1
    (step.1 :: rest.1, rest.2)

/-- Modelled from the spec: the `PlanReader` collaborator state — the
plan's initial task description, its declared host-agent request, the
ordered recorded steps with a monotone cursor, and the task
identifier. -/
structure PlanReader where
  initialRequest : String
  hostRequest : String
  steps : List String
  cursor : Nat
  task : String
deriving DecidableEq

/-- Modelled from the spec: `PlanReader.task_finished()` — the plan
reports completion once the cursor has consumed every recorded step. -/
def PlanReader.taskFinished (p : PlanReader) : Bool :=
  p.steps.length ≤ p.cursor

/-- Modelled from the spec: `PlanReader.get_initial_request()`. -/
def PlanReader.getInitialRequest (p : PlanReader) : String := p.initialRequest

/-- Modelled from the spec: `PlanReader.get_host_agent_request()`. -/
def PlanReader.getHostAgentRequest (p : PlanReader) : String := p.hostRequest

/-- Modelled from the spec: `PlanReader.next_step()` returns the next
recorded step and advances the cursor (monotonically, never
rewinding). -/
def PlanReader.nextStep (p : PlanReader) : String × PlanReader :=
  (p.steps.getD p.cursor "", { p with cursor := p.cursor + 1 })

/-- State of a `FollowerSession`: the `BaseSession` bookkeeping
(`finish`, `rounds`, modelled from the spec as for `SessionS`), the
wrapped `PlanReader`, and the host / active application agents. -/
structure FollowerS where
  finish : Bool
  rounds : List Round
  plan : PlanReader
  hostAgent : Agent
  appAgent : Agent
deriving DecidableEq

/-- Modelled from the spec: `BaseSession.total_rounds` for a follower
session. -/
def FollowerS.totalRounds (s : FollowerS) : Nat := s.rounds.length

/-- Modelled from the spec: `BaseSession.is_finished()` for a follower
session. -/
def FollowerS.isFinished (s : FollowerS) : Bool := s.finish

/-- Translation of `FollowerSession.__init__`: wraps a fresh
`PlanReader` over the given plan; the `BaseSession` bookkeeping starts
with no rounds and `finish = False` (modelled from the spec). -/
def FollowerSession.initState (plan : PlanReader) : FollowerS :=
  { finish := false, rounds := [], plan := plan,
    hostAgent := { stateTag := AgentTag.fresh, memory := [], requests := [] },
    appAgent := { stateTag := AgentTag.fresh, memory := [], requests := [] } }

/-- Translation of `FollowerSession.next_request` (session.py lines
257-271): if the plan reports completion set `_finish` and return an
empty string; otherwise round 0 returns the plan's declared host-agent
request and later rounds return the plan's next recorded step. -/
def FollowerSession.nextRequest (s : FollowerS) : String × FollowerS :=
  if s.plan.taskFinished then
    ("", { s with finish := true })
  else if s.totalRounds = 0 then
    (s.plan.getHostAgentRequest, s)
  else
    let step := s.plan.nextStep
    (step.1, { s with plan := step.2 })

/-- Translation of `FollowerSession.create_new_round` (session.py lines
220-255): obtain the request via `next_request`, return `None` if the
session is finished; at round 0 print the banner with the plan's
initial request and bind the round to the host agent; at later rounds
take the active application agent, clear its memory and blackboard
request history, tag it with the continue-app state, and bind the
round to it; register the round with `id = total_rounds`. -/
def FollowerSession.createNewRound (cfg : Config) (s : FollowerS) :
    Option Round × FollowerS × List Eff :=
  let step := FollowerSession.nextRequest s
  let request := step.1
  let s1 := step.2
  if s1.isFinished then (none, s1, [])
  else if s1.totalRounds = 0 then
    let effs := [Eff.printColor "Complete the following request:" "yellow",
                 Eff.printColor s1.plan.getInitialRequest "cyan"]
    let round : Round := { request := request, agentIsHost := true,
                           shouldEvaluate := cfg.evaRound, id := s1.totalRounds }
    (some round, { s1 with rounds := s1.rounds ++ [round] }, effs)
  else
    let app : Agent :=
      { s1.appAgent with
        memory := []
        requests := []
        stateTag := AgentTag.continueApp }
    let s2 := { s1 with appAgent := app }
    let round : Round := { request := request, agentIsHost := false,
                           shouldEvaluate := cfg.evaRound, id := s2.totalRounds }
    (some round, { s2 with rounds := s2.rounds ++ [round] },
      [Eff.clearMemory, Eff.clearRequests, Eff.setAppState])

/-- Modelled from the spec: the round-driving loop for a follower
session; `runRounds n` performs `n` consecutive `create_new_round`
calls and collects the returned round options. -/
def FollowerSession.runRounds (cfg : Config) :
    Nat → FollowerS → List (Option Round) × FollowerS
  | 0, s => ([], s)
  | n + 1, s =>
    let step := FollowerSession.createNewRound cfg s
    let rest := FollowerSession.runRounds cfg n step.2.1
    (step.1 :: rest.1, rest.2)

/-! ### Path helpers (POSIX semantics of the `os.path` calls the sources make) -/

/-- Semantics of `os.path.join(a, b)` (POSIX): an absolute second
component replaces the first, otherwise the components are joined with
a single separator unless the first already ends in one or is empty. -/
def osJoin (a b : String) : String :=
  if b.data.head? = some '/' then b
  else if a = "" then b
  else if a.data.getLast? = some '/' then a ++ b
  else a ++ "/" ++ b

/-- Semantics of `os.path.basename(p)` (POSIX): everything after the
last separator. -/
def osBasename (p : String) : String :=
  String.mk ((p.data.reverse.takeWhile (fun c => c ≠ '/')).reverse)

/-- Semantics of `os.path.dirname(p)` (POSIX): everything before the
last separator, with trailing separators stripped unless the result
consists only of separators; `""` when there is no separator. -/
def osDirname (p : String) : String :=
  let revHead := p.data.reverse.dropWhile (fun c => c ≠ '/')
  if revHead.all (fun c => c = '/') then String.mk revHead.reverse
  else String.mk ((revHead.dropWhile (fun c => c = '/')).reverse)

/-- Index of the last `'.'` in a character list, if any. -/
def lastDotIdx (cs : List Char) : Option Nat :=
  (cs.reverse.findIdx? (fun c => c = '.')).map (fun k => cs.length - 1 - k)

/-- Semantics of `os.path.splitext` restricted to a bare file name (no
separators), returning the root: the name is split at its last `'.'`
unless every character before that dot is itself a dot (leading dots
do not start an extension, so `".json"` has no extension). -/
def stemOfName (name : String) : String :=
  match lastDotIdx name.data with
  | none => name
  | some i =>
    if (name.data.take i).any (fun c => c ≠ '.') then String.mk (name.data.take i)
    else name

/-- Semantics of `os.path.splitext(p)[0]` on a full path: the directory
part is kept and the extension split is applied to the base name. -/
def splitextRoot (p : String) : String :=
  let b := osBasename p
  String.mk (p.data.take (p.data.length - b.data.length)) ++ stemOfName b

/-! ### SessionFactory -/

/-- The static data of a constructed session, as produced by
`SessionFactory.create_session`: an interactive `Session(task,
should_evaluate, id, request)` or a `FollowerSession(task, plan_file,
should_evaluate, id)`. -/
inductive SessionU where
  | interactive (task : String) (shouldEvaluate : Bool) (id : Nat) (request : String)
  | follower (task : String) (planFile : String) (shouldEvaluate : Bool) (id : Nat)
deriving DecidableEq

/-- Semantics of Python's `str.endswith(suf)`: the characters of `suf`
are a suffix of the characters of `s`. -/
def strEndsWith (s suf : String) : Bool :=
  suf.data.isSuffixOf s.data

/-- Translation of `SessionFactory.get_plan_files` (session.py lines
80-87): the files of the directory listing whose name ends in
`".json"`, each joined to the directory path, in listing order.  The
operating-system directory listing (`os.listdir`) is passed in as the
`listing` function. -/
def SessionFactory.getPlanFiles (listing : String → List String) (path : String) :
    List String :=
  ((listing path).filter (fun f => strEndsWith f ".json")).map (fun f => osJoin path f)

/-- Translation of `SessionFactory.get_file_name_without_extension`
(session.py lines 89-95): `os.path.splitext(os.path.basename(p))[0]`. -/
def SessionFactory.getFileNameWithoutExtension (filePath : String) : String :=
  stemOfName (osBasename filePath)

/-- Translation of `SessionFactory.create_follower_session_in_batch`
(session.py lines 48-69): one `FollowerSession` per plan file, with
sub-task name `task ++ "/" ++ file_name` and id equal to the position
in the enumeration of the zipped (name, file) list. -/
def SessionFactory.createFollowerSessionInBatch (cfg : Config)
    (listing : String → List String) (task plan : String) : List SessionU :=
  let planFiles := SessionFactory.getPlanFiles listing plan
  let fileNames := planFiles.map SessionFactory.getFileNameWithoutExtension
  (List.zip fileNames planFiles).enum.map
    (fun p => SessionU.follower (task ++ "/" ++ p.2.1) p.2.2 cfg.evaSession p.1)

/-- Translation of `SessionFactory.create_session` (session.py lines
24-46): `"normal"` yields one interactive session with id 0;
`"follower"` yields the batch expansion when the plan names a folder
(`os.path.isdir` passed in as `isFolder`) and a single follower
session with id 0 otherwise; any other mode raises
`ValueError(f"The ... mode is not supported.")`, modelled as an
`Except.error` carrying the same message. -/
def SessionFactory.createSession (cfg : Config) (isFolder : String → Bool)
    (listing : String → List String) (task mode plan request : String) :
    Except String (List SessionU) :=
  if mode = "normal" then
    Except.ok [SessionU.interactive task cfg.evaSession 0 request]
  else if mode = "follower" then
    if isFolder plan then
      Except.ok (SessionFactory.createFollowerSessionInBatch cfg listing task plan)
    else
      Except.ok [SessionU.follower task plan cfg.evaSession 0]
  else
    Except.error ("The " ++ mode ++ " mode is not supported.")

/-! ### JSON values and the semantics of `json.dump(..., indent=4)` / `json.load`

`save_to_json` delegates serialization to the standard `json` module
with `indent=4`.  The structured values are modelled as JSON trees
(numbers restricted to arbitrary-precision integers, matching Python
`int`); the printer below reproduces `json.dump`'s output — 4-space
indentation, `", "`-free item separators followed by a newline, `": "`
key separators, and `ensure_ascii` string escaping — and the parser
reproduces the accepting behaviour of `json.load` on such documents. -/

/-- Opening curly bracket character. -/
def obrace : Char := Char.ofNat 123

/-- Closing curly bracket character. -/
def cbrace : Char := Char.ofNat 125

mutual

/-- A JSON value: the structured values `save_to_json` persists. -/
inductive JsonVal where
  | null
  | bool (b : Bool)
  | num (n : Int)
  | str (s : String)
  | arr (items : JsonArr)
  | obj (entries : JsonObj)

/-- A list of JSON values (array elements). -/
inductive JsonArr where
  | nil
  | cons (v : JsonVal) (rest : JsonArr)

/-- A list of string-keyed JSON entries (object members; Python dict
keys are unique strings). -/
inductive JsonObj where
  | nil
  | cons (k : String) (v : JsonVal) (rest : JsonObj)

end

/-- Decimal digit character for `d < 10`. -/
def digitChar : Nat → Char
  | 0 => '0' | 1 => '1' | 2 => '2' | 3 => '3' | 4 => '4'
  | 5 => '5' | 6 => '6' | 7 => '7' | 8 => '8' | _ => '9'

/-- Lowercase hexadecimal digit character for `d < 16`, as produced by
Python's `\uXXXX` escapes. -/
def hexDigitChar : Nat → Char
  | 0 => '0' | 1 => '1' | 2 => '2' | 3 => '3' | 4 => '4'
  | 5 => '5' | 6 => '6' | 7 => '7' | 8 => '8' | 9 => '9'
  | 10 => 'a' | 11 => 'b' | 12 => 'c' | 13 => 'd' | 14 => 'e' | _ => 'f'

/-- Decimal digit test (`[0-9]`, as in the `json` number grammar). -/
def isDigitChar (c : Char) : Bool :=
  48 ≤ c.toNat && c.toNat ≤ 57

/-- The four hex digits of `n % 0x10000`, most significant first. -/
def hex4 (n : Nat) : List Char :=
  [hexDigitChar (n / 4096 % 16), hexDigitChar (n / 256 % 16),
   hexDigitChar (n / 16 % 16), hexDigitChar (n % 16)]

/-- Decimal digits of `n` (empty for 0), most significant first. -/
def natDigits (n : Nat) : List Char :=
  if h : n = 0 then []
  else natDigits (n / 10) ++ [digitChar (n % 10)]
termination_by n
decreasing_by exact Nat.div_lt_self (Nat.pos_of_ne_zero h) (by decide)

/-- Decimal rendering of a natural number, as `str` produces. -/
def natToChars (n : Nat) : List Char :=
  if n = 0 then ['0'] else natDigits n

/-- Decimal rendering of a Python `int`, as `str` / `json.dump`
produce. -/
def intToChars : Int → List Char
  | Int.ofNat m => natToChars m
  | Int.negSucc m => '-' :: natToChars (m + 1)

/-- `json.dump` rendering of one string character under the default
`ensure_ascii=True`: printable ASCII other than the quote and the
backslash is literal, the two-character shortcuts cover the common
control characters, and everything else becomes `\uXXXX` escapes
(a surrogate pair for characters beyond the basic plane). -/
def escChar (c : Char) : List Char :=
  if c = '"' then ['\\', '"']
  else if c = '\\' then ['\\', '\\']
  else if c = '\n' then ['\\', 'n']
  else if c = '\t' then ['\\', 't']
  else if c = '\r' then ['\\', 'r']
  else if c.toNat = 8 then ['\\', 'b']
  else if c.toNat = 12 then ['\\', 'f']
  else if 32 ≤ c.toNat ∧ c.toNat ≤ 126 then [c]
  else if c.toNat < 65536 then '\\' :: 'u' :: hex4 c.toNat
  else
    ('\\' :: 'u' :: hex4 (55296 + (c.toNat - 65536) / 1024)) ++
      ('\\' :: 'u' :: hex4 (56320 + (c.toNat - 65536) % 1024))

/-- `escChar` applied to every character of a list, concatenated. -/
def escList : List Char → List Char
  | [] => []
  | c :: rest => escChar c ++ escList rest

/-- `json.dump` rendering of a string: escaped body between quotes. -/
def dumpString (s : String) : List Char :=
  '"' :: escList s.data ++ ['"']

/-- `ind * 4` spaces: the indentation of nesting level `ind` under
`indent=4`. -/
def indentChars (ind : Nat) : List Char :=
  List.replicate (ind * 4) ' '

mutual

/-- `json.dump(v, indent=4)` rendering of a value whose first line sits
at nesting level `ind`: scalars are atoms; non-empty containers open a
line-per-item block whose items are indented one level deeper and whose
closing bracket returns to level `ind`; empty containers print as
`[]` / the empty brace pair. -/
def dumpVal : Nat → JsonVal → List Char
  | _, JsonVal.null => "null".data
  | _, JsonVal.bool true => "true".data
  | _, JsonVal.bool false => "false".data
  | _, JsonVal.num n => intToChars n
  | _, JsonVal.str s => dumpString s
  | _, JsonVal.arr JsonArr.nil => ['[', ']']
  | ind, JsonVal.arr (JsonArr.cons v rest) =>
    '[' :: '\n' :: dumpArrItems (ind + 1) (JsonArr.cons v rest) ++
      '\n' :: indentChars ind ++ [']']
  | _, JsonVal.obj JsonObj.nil => [obrace, cbrace]
  | ind, JsonVal.obj (JsonObj.cons k v rest) =>
    obrace :: '\n' :: dumpObjItems (ind + 1) (JsonObj.cons k v rest) ++
      '\n' :: indentChars ind ++ [cbrace]

/-- The item block of a non-empty array: one indented item per line,
separated by `",\n"`. -/
def dumpArrItems : Nat → JsonArr → List Char
  | _, JsonArr.nil => []
  | ind, JsonArr.cons v JsonArr.nil => indentChars ind ++ dumpVal ind v
  | ind, JsonArr.cons v (JsonArr.cons w rest) =>
    indentChars ind ++ dumpVal ind v ++
      ',' :: '\n' :: dumpArrItems ind (JsonArr.cons w rest)

/-- The member block of a non-empty object: one indented
`"key": value` per line, separated by `",\n"`. -/
def dumpObjItems : Nat → JsonObj → List Char
  | _, JsonObj.nil => []
  | ind, JsonObj.cons k v JsonObj.nil =>
    indentChars ind ++ dumpString k ++ ':' :: ' ' :: dumpVal ind v
  | ind, JsonObj.cons k v (JsonObj.cons k2 v2 rest) =>
    indentChars ind ++ dumpString k ++ ':' :: ' ' :: dumpVal ind v ++
      ',' :: '\n' :: dumpObjItems ind (JsonObj.cons k2 v2 rest)

end

/-- The exact text `json.dump(data, file, indent=4)` writes. -/
def dumps (v : JsonVal) : String := String.mk (dumpVal 0 v)

/-- JSON insignificant whitespace. -/
def isWsChar (c : Char) : Bool :=
  c = ' ' || c = '\n' || c = '\t' || c = '\r'

/-- Skip insignificant whitespace. -/
def skipWs (cs : List Char) : List Char :=
  cs.dropWhile isWsChar

/-- Value of a hexadecimal digit character, accepting both cases. -/
def decodeHexDigit (c : Char) : Option Nat :=
  if 48 ≤ c.toNat ∧ c.toNat ≤ 57 then some (c.toNat - 48)
  else if 97 ≤ c.toNat ∧ c.toNat ≤ 102 then some (c.toNat - 87)
  else if 65 ≤ c.toNat ∧ c.toNat ≤ 70 then some (c.toNat - 55)
  else none

/-- Value of four hexadecimal digit characters, most significant
first. -/
def decodeHex4 (c1 c2 c3 c4 : Char) : Option Nat :=
  match decodeHexDigit c1, decodeHexDigit c2, decodeHexDigit c3, decodeHexDigit c4 with
  | some d1, some d2, some d3, some d4 => some (((d1 * 16 + d2) * 16 + d3) * 16 + d4)
  | _, _, _, _ => none

/-- Value of a list of decimal digit characters. -/
def digitsToNat (ds : List Char) : Nat :=
  ds.foldl (fun a c => 10 * a + (c.toNat - 48)) 0

/-- Parse the continuation of a high surrogate `\uXXXX` escape with
decoded value `h`: a following low surrogate escape, recombined into
one character beyond the basic plane. -/
def parseLowSurrogate (h : Nat) (r : List Char) : Option (Char × List Char) :=
  match r with
  | c1 :: c2 :: r2 =>
    if c1 = '\\' ∧ c2 = 'u' then
      match r2 with
      | d1 :: d2 :: d3 :: d4 :: r3 =>
        (match decodeHex4 d1 d2 d3 d4 with
         | none => none
         | some l =>
           if 56320 ≤ l ∧ l < 57344 then
             some (Char.ofNat (65536 + (h - 55296) * 1024 + (l - 56320)), r3)
           else none)
      | _ => none
    else none
  | _ => none

/-- Parse one escape sequence (after the backslash): the two-character
shortcuts, or `\uXXXX` with surrogate-pair recombination; returns the
decoded character and the unconsumed suffix. -/
def parseEscape (rest : List Char) : Option (Char × List Char) :=
  match rest with
  | [] => none
  | c :: r =>
    if c = 'n' then some ('\n', r)
    else if c = 't' then some ('\t', r)
    else if c = 'r' then some ('\r', r)
    else if c = 'b' then some (Char.ofNat 8, r)
    else if c = 'f' then some (Char.ofNat 12, r)
    else if c = '"' then some ('"', r)
    else if c = '\\' then some ('\\', r)
    else if c = '/' then some ('/', r)
    else if c = 'u' then
      match r with
      | a :: b :: d :: e :: r2 =>
        (match decodeHex4 a b d e with
         | none => none
         | some h =>
           if h < 55296 ∨ 57344 ≤ h then some (Char.ofNat h, r2)
           else if h < 56320 then parseLowSurrogate h r2
           else none)
      | _ => none
    else none

/-- Parse a JSON string body (after the opening quote) with the
accumulated characters reversed in `acc`: literal characters and
escape sequences, up to the closing quote.  The fuel decreases once
per parsed character; since every step consumes at least one input
character, `input length + 1` is always enough. -/
def parseStringBody : Nat → List Char → List Char → Option (String × List Char)
  | 0, _, _ => none
  | _ + 1, [], _ => none
  | fuel + 1, c :: rest, acc =>
    if c = '"' then some (String.mk acc.reverse, rest)
    else if c = '\\' then
      match parseEscape rest with
      | some p => parseStringBody fuel p.2 (p.1 :: acc)
      | none => none
    else parseStringBody fuel rest (c :: acc)

/-- Parse a JSON integer: optional minus sign followed by a non-empty
run of decimal digits. -/
def parseNum (cs : List Char) : Option (JsonVal × List Char) :=
  match cs with
  | [] => none
  | c :: rest =>
    if c = '-' then
      let ds := rest.takeWhile isDigitChar
      if ds = [] then none
      else some (JsonVal.num (-(Int.ofNat (digitsToNat ds))), rest.dropWhile isDigitChar)
    else
      let ds := (c :: rest).takeWhile isDigitChar
      if ds = [] then none
      else some (JsonVal.num (Int.ofNat (digitsToNat ds)), (c :: rest).dropWhile isDigitChar)

mutual

/-- Fuel-indexed recursive-descent parser for one JSON value, skipping
leading whitespace; returns the value and the unconsumed suffix. -/
def parseVal : Nat → List Char → Option (JsonVal × List Char)
  | 0, _ => none
  | fuel + 1, cs0 =>
    let cs := skipWs cs0
    if cs.take 4 = "null".data then some (JsonVal.null, cs.drop 4)
    else if cs.take 4 = "true".data then some (JsonVal.bool true, cs.drop 4)
    else if cs.take 5 = "false".data then some (JsonVal.bool false, cs.drop 5)
    else
      match cs with
      | [] => none
      | c :: rest =>
        if c = '"' then
          match parseStringBody (rest.length + 1) rest [] with
          | some (s, rest2) => some (JsonVal.str s, rest2)
          | none => none
        else if c = '[' then
          let rest1 := skipWs rest
          if rest1.take 1 = [']'] then some (JsonVal.arr JsonArr.nil, rest1.drop 1)
          else
            match parseArrItems fuel rest1 with
            | some (xs, rest2) => some (JsonVal.arr xs, rest2)
            | none => none
        else if c = obrace then
          let rest1 := skipWs rest
          if rest1.take 1 = [cbrace] then some (JsonVal.obj JsonObj.nil, rest1.drop 1)
          else
            match parseObjItems fuel rest1 with
            | some (xs, rest2) => some (JsonVal.obj xs, rest2)
            | none => none
        else parseNum cs

/-- Parse the non-empty item list of an array, up to and including the
closing bracket. -/
def parseArrItems : Nat → List Char → Option (JsonArr × List Char)
  | 0, _ => none
  | fuel + 1, cs =>
    match parseVal fuel cs with
    | none => none
    | some (v, cs1) =>
      let cs2 := skipWs cs1
      if cs2.take 1 = [','] then
        match parseArrItems fuel (cs2.drop 1) with
        | some (xs, cs4) => some (JsonArr.cons v xs, cs4)
        | none => none
      else if cs2.take 1 = [']'] then some (JsonArr.cons v JsonArr.nil, cs2.drop 1)
      else none

/-- Parse the non-empty member list of an object, up to and including
the closing brace. -/
def parseObjItems : Nat → List Char → Option (JsonObj × List Char)
  | 0, _ => none
  | fuel + 1, cs =>
    match skipWs cs with
    | [] => none
    | c :: rest =>
      if c = '"' then
        match parseStringBody (rest.length + 1) rest [] with
        | none => none
        | some (k, cs1) =>
          let cs2 := skipWs cs1
          if cs2.take 1 = [':'] then
            match parseVal fuel (cs2.drop 1) with
            | none => none
            | some (v, cs4) =>
              let cs5 := skipWs cs4
              if cs5.take 1 = [','] then
                match parseObjItems fuel (cs5.drop 1) with
                | some (xs, cs6) => some (JsonObj.cons k v xs, cs6)
                | none => none
              else if cs5.take 1 = [cbrace] then
                some (JsonObj.cons k v JsonObj.nil, cs5.drop 1)
              else none
          else none
      else none

end

/-- The semantics of `json.load`: parse one document and require that
only insignificant whitespace follows it. -/
def loads (s : String) : Option JsonVal :=
  match parseVal (s.data.length + 1) s.data with
  | some (v, rest) => if skipWs rest = [] then some v else none
  | none => none

mutual

/-- Node-count measure of a JSON value, used as a fuel bound. -/
def jsizeV : JsonVal → Nat
  | JsonVal.arr xs => jsizeA xs + 1
  | JsonVal.obj xs => jsizeO xs + 1
  | _ => 1

/-- Node-count measure of an array item list. -/
def jsizeA : JsonArr → Nat
  | JsonArr.nil => 1
  | JsonArr.cons v rest => jsizeV v + jsizeA rest + 1

/-- Node-count measure of an object member list. -/
def jsizeO : JsonObj → Nat
  | JsonObj.nil => 1
  | JsonObj.cons _ v rest => jsizeV v + jsizeO rest + 1

end

/-! ### Filesystem model for the record-processor helpers

`save_to_json`, `unzip_file` and `unzip_and_read_file` interact with
the filesystem through `os.path.exists`, `os.makedirs`, `os.listdir`,
`open` and `zipfile.ZipFile.extractall`.  The filesystem is modelled as
a set of directories plus a map from paths to file data (text files or
zip archives, an archive being its list of root-level member names and
text contents); the current working directory is the implicit root, so
relative paths with an empty directory part live directly in it.
Because `os.listdir` returns entries in an unspecified
operating-system order, the model fixes the canonical deterministic
choice: sorted order. -/

/-- Contents of a file: a text file, or a zip archive given by its
member names and their text contents (the claims only involve archives
whose members sit at the archive root). -/
inductive FData where
  | text (content : String)
  | zip (entries : List (String × String))
deriving DecidableEq

/-- The filesystem: existing directories and files. -/
structure FS where
  dirs : List String
  files : List (String × FData)
deriving DecidableEq

/-- Insert or overwrite a file. -/
def insertFile (fl : List (String × FData)) (p : String) (d : FData) :
    List (String × FData) :=
  match fl with
  | [] => [(p, d)]
  | (q, e) :: rest => if q = p then (p, d) :: rest else (q, e) :: insertFile rest p d

/-- `os.path.exists`: true for an existing directory or file; the empty
path never exists (Python: `os.path.exists("") == False`). -/
def FS.pathExists (fs : FS) (p : String) : Bool :=
  fs.dirs.contains p || (fs.files.lookup p).isSome

/-- Split a character list at `'/'` boundaries. -/
def splitSlash : List Char → List (List Char)
  | [] => [[]]
  | c :: rest =>
    if c = '/' then [] :: splitSlash rest
    else
      match splitSlash rest with
      | [] => [[c]]
      | g :: gs => (c :: g) :: gs

/-- Rejoin groups with `'/'`. -/
def joinSlash : List (List Char) → List Char
  | [] => []
  | [g] => g
  | g :: gs => g ++ '/' :: joinSlash gs

/-- Every non-empty prefix of `p` at a separator boundary, ending with
`p` itself: the directories `os.makedirs(p)` creates. -/
def ancestorsOf (p : String) : List String :=
  ((List.range (splitSlash p.data).length).map
    (fun k => String.mk (joinSlash ((splitSlash p.data).take (k + 1))))).filter
    (fun d => d ≠ "")

/-- `os.makedirs(p)`: creates `p` and all missing ancestors; called on
the empty path it raises `FileNotFoundError` (as
`os.makedirs("")` does in Python). -/
def FS.makedirs (fs : FS) (p : String) : Except String FS :=
  if p = "" then Except.error "FileNotFoundError"
  else
    Except.ok { fs with
      dirs := fs.dirs ++ (ancestorsOf p).filter (fun d => ¬ fs.dirs.contains d) }

/-- `open(p, "w")` followed by writing `d`: requires the parent
directory to exist (the working directory when the path has no
directory part). -/
def FS.writeFile (fs : FS) (p : String) (d : FData) : Except String FS :=
  let dir := osDirname p
  if dir = "" then Except.ok { fs with files := insertFile fs.files p d }
  else if fs.dirs.contains dir then
    Except.ok { fs with files := insertFile fs.files p d }
  else Except.error "FileNotFoundError"

/-- `open(p, "r").read()` on a text file. -/
def FS.readFile (fs : FS) (p : String) : Except String String :=
  match fs.files.lookup p with
  | some (FData.text c) => Except.ok c
  | some (FData.zip _) => Except.error "UnicodeDecodeError"
  | none => Except.error "FileNotFoundError"

/-- Strict lexicographic order on character lists by code point. -/
def charsLt : List Char → List Char → Bool
  | [], [] => false
  | [], _ :: _ => true
  | _ :: _, [] => false
  | a :: as, b :: bs =>
    if a.toNat < b.toNat then true
    else if b.toNat < a.toNat then false
    else charsLt as bs

/-- Lexicographic `≤` on strings by code point (the order in which the
model's `os.listdir` returns entries). -/
def strLe (a b : String) : Bool := ! charsLt b.data a.data

/-- `os.listdir(d)`: the base names of the files and directories whose
parent is `d`, in the model's canonical (sorted, deduplicated)
order. -/
def FS.listdir (fs : FS) (d : String) : List String :=
  let fileNames := ((fs.files.map Prod.fst).filter (fun p => osDirname p = d)).map osBasename
  let dirNames := (fs.dirs.filter (fun p => osDirname p = d)).map osBasename
  ((fileNames ++ dirNames).dedup).insertionSort (fun a b => strLe a b = true)

/-- `ZipFile(p).extractall(folder)` for archives with root-level
members: write each member under `folder`. -/
def extractAll (fs : FS) (folder : String) (entries : List (String × String)) : FS :=
  entries.foldl
    (fun acc e => { acc with files := insertFile acc.files (osJoin folder e.1) (FData.text e.2) })
    fs

/-- Translation of `save_to_json` (record_processor/utils/__init__.py
lines 42-57): take the directory part of the output path, create it if
`os.path.exists` says it is missing, then write the value as
pretty-printed 4-space-indented JSON. -/
def save_to_json (fs : FS) (data : JsonVal) (outputFilePath : String) :
    Except String FS := do
  let directory := osDirname outputFilePath
  let fs1 ←
    if FS.pathExists fs directory then Except.ok fs
    else FS.makedirs fs directory
  FS.writeFile fs1 outputFilePath (FData.text (dumps data))

/-- Reading back what `save_to_json` wrote: `json.load(open(path))`. -/
def load_from_json (fs : FS) (p : String) : Option JsonVal :=
  match FS.readFile fs p with
  | Except.ok content => loads content
  | Except.error _ => none

/-- Translation of `unzip_file` (record_processor/utils/__init__.py
lines 22-39): derive the sibling folder name by dropping the archive
extension, create the folder if missing, extract the archive into it,
and return the join of the folder with the first entry of its
directory listing (an empty listing raises `IndexError`, as Python's
`os.listdir(folder)[0]` would). -/
def unzip_file (fs : FS) (zipFilePath : String) : Except String (String × FS) := do
  let folderName := splitextRoot zipFilePath
  let fs1 ←
    if FS.pathExists fs folderName then Except.ok fs
    else FS.makedirs fs folderName
  let entries ←
    match fs1.files.lookup zipFilePath with
    | some (FData.zip es) => Except.ok es
    | some (FData.text _) => Except.error "BadZipFile"
    | none => Except.error "FileNotFoundError"
  let fs2 := extractAll fs1 folderName entries
  match FS.listdir fs2 folderName with
  | [] => Except.error "IndexError"
  | first :: _ => Except.ok (osJoin folderName first, fs2)

/-- Translation of `unzip_and_read_file`
(record_processor/utils/__init__.py lines 10-19): unzip, then read the
returned extracted file. -/
def unzip_and_read_file (fs : FS) (filePath : String) : Except String String := do
  let step ← unzip_file fs filePath
  FS.readFile step.2 step.1

/-! ## Theorems -/

/-! ### Helper lemmas about the session state machines -/

/-- A finished interactive session stays finished and produces no round
in one `create_new_round` step. -/
theorem session_step_of_finished (cfg : Config) (it : Interactor) (s : SessionS)
    (h : s.finish = true) :
    (Session.createNewRound cfg it s).1 = none ∧
      (Session.createNewRound cfg it s).2.1.finish = true := by
  rcases s with ⟨ir, fin, rnds, ha, fc, nc⟩
  cases h
  simp only [Session.createNewRound, Session.nextRequest, SessionS.isFinished,
    SessionS.totalRounds]
  split_ifs <;> simp_all

/-- A finished follower session stays finished and produces no round in
one `create_new_round` step. -/
theorem follower_step_of_finished (cfg : Config) (s : FollowerS)
    (h : s.finish = true) :
    (FollowerSession.createNewRound cfg s).1 = none ∧
      (FollowerSession.createNewRound cfg s).2.1.finish = true := by
  rcases s with ⟨fin, rnds, plan, ha, aa⟩
  cases h
  simp only [FollowerSession.createNewRound, FollowerSession.nextRequest,
    FollowerS.isFinished, FollowerS.totalRounds]
  split_ifs <;> simp_all

/-- C1, claim theorem.  Once `next_request` observes completion — the
continuation prompt answering `is_complete = true` for an interactive
session, or the plan reporting completion for a follower session — the
`finish` flag is set; and from any state with `finish = true`, every
later `create_new_round` call returns no round and leaves `finish`
true, for both session variants and any number of subsequent calls
(so `finish` transitions false→true at most once and never resets). -/
theorem claim_C1 :
    (∀ (it : Interactor) (s : SessionS), s.totalRounds ≠ 0 →
      (it.newResp s.newCount).2 = true → (Session.nextRequest it s).2.1.finish = true)
  ∧ (∀ s : FollowerS, s.plan.taskFinished = true →
      (FollowerSession.nextRequest s).2.finish = true)
  ∧ (∀ (cfg : Config) (it : Interactor) (s : SessionS) (n : Nat), s.finish = true →
      (∀ r ∈ (Session.runRounds cfg it n s).1, r = none) ∧
        (Session.runRounds cfg it n s).2.finish = true)
  ∧ (∀ (cfg : Config) (s : FollowerS) (n : Nat), s.finish = true →
      (∀ r ∈ (FollowerSession.runRounds cfg n s).1, r = none) ∧
        (FollowerSession.runRounds cfg n s).2.finish = true) := by
  refine ⟨?_, ?_, ?_, ?_⟩
  · intro it s h hc
    simp only [Session.nextRequest, SessionS.totalRounds] at *
    rw [if_neg h]
    simp [hc]
  · intro s h
    simp [FollowerSession.nextRequest, h]
  · intro cfg it s n
    induction n generalizing s with
    | zero => intro h; simpa [Session.runRounds] using h
    | succ n ih =>
      intro h
      have hstep := session_step_of_finished cfg it s h
      have hrest := ih _ hstep.2
      simp only [Session.runRounds]
      constructor
      · intro r hr
        rcases List.mem_cons.mp hr with hr | hr
        · rw [hr, hstep.1]
        · exact hrest.1 r hr
      · exact hrest.2
  · intro cfg s n
    induction n generalizing s with
    | zero => intro h; simpa [FollowerSession.runRounds] using h
    | succ n ih =>
      intro h
      have hstep := follower_step_of_finished cfg s h
      have hrest := ih _ hstep.2
      simp only [FollowerSession.runRounds]
      constructor
      · intro r hr
        rcases List.mem_cons.mp hr with hr | hr
        · rw [hr, hstep.1]
        · exact hrest.1 r hr
      · exact hrest.2

/-- C1, witness: the theorem applied at a concrete finished state — a
session whose continuation prompt reports completion sets `finish`,
and two further `create_new_round` calls on a finished follower
session both return no round. -/
theorem claim_C1_witness :
    ((⟨fun _ => "a", fun _ => ("b", true)⟩ : Interactor).newResp 0).2 = true ∧
    (Session.nextRequest ⟨fun _ => "a", fun _ => ("b", true)⟩
      ⟨"req", false, [⟨"req", true, false, 0⟩], ⟨AgentTag.fresh, [], []⟩, 0, 0⟩).2.1.finish
        = true ∧
    (∀ r ∈ (FollowerSession.runRounds ⟨false, false⟩ 2
        ⟨true, [], ⟨"i", "h", [], 0, "t"⟩, ⟨AgentTag.fresh, [], []⟩,
          ⟨AgentTag.fresh, [], []⟩⟩).1, r = none) := by
  refine ⟨rfl, ?_, ?_⟩
  · exact claim_C1.1 ⟨fun _ => "a", fun _ => ("b", true)⟩
      ⟨"req", false, [⟨"req", true, false, 0⟩], ⟨AgentTag.fresh, [], []⟩, 0, 0⟩
      (by decide) rfl
  · exact (claim_C1.2.2.2 ⟨false, false⟩
      ⟨true, [], ⟨"i", "h", [], 0, "t"⟩, ⟨AgentTag.fresh, [], []⟩,
        ⟨AgentTag.fresh, [], []⟩⟩ 2 rfl).1

/-- One interactive `create_new_round` step either leaves the round
list unchanged (no round) or appends exactly one round whose id is the
previous `total_rounds`. -/
theorem session_step_rounds (cfg : Config) (it : Interactor) (s : SessionS) :
    ((Session.createNewRound cfg it s).1 = none ∧
      (Session.createNewRound cfg it s).2.1.rounds = s.rounds) ∨
    (∃ r, (Session.createNewRound cfg it s).1 = some r ∧ r.id = s.rounds.length ∧
      (Session.createNewRound cfg it s).2.1.rounds = s.rounds ++ [r]) := by
  rcases s with ⟨ir, fin, rnds, ha, fc, nc⟩
  simp only [Session.createNewRound, Session.nextRequest, SessionS.isFinished,
    SessionS.totalRounds]
  split_ifs <;> simp_all

/-- One follower `create_new_round` step either leaves the round list
unchanged (no round) or appends exactly one round whose id is the
previous `total_rounds`. -/
theorem follower_step_rounds (cfg : Config) (s : FollowerS) :
    ((FollowerSession.createNewRound cfg s).1 = none ∧
      (FollowerSession.createNewRound cfg s).2.1.rounds = s.rounds) ∨
    (∃ r, (FollowerSession.createNewRound cfg s).1 = some r ∧ r.id = s.rounds.length ∧
      (FollowerSession.createNewRound cfg s).2.1.rounds = s.rounds ++ [r]) := by
  rcases s with ⟨fin, rnds, plan, ha, aa⟩
  simp only [FollowerSession.createNewRound, FollowerSession.nextRequest,
    FollowerS.isFinished, FollowerS.totalRounds]
  split_ifs <;> simp_all

/-- The id bookkeeping invariant `rounds.map id = range rounds.length`
is preserved by the interactive driving loop. -/
theorem session_runRounds_ids (cfg : Config) (it : Interactor) (n : Nat)
    (s : SessionS) (h : s.rounds.map Round.id = List.range s.rounds.length) :
    (Session.runRounds cfg it n s).2.rounds.map Round.id =
      List.range (Session.runRounds cfg it n s).2.rounds.length := by
  induction n generalizing s with
  | zero => simpa [Session.runRounds] using h
  | succ n ih =>
    simp only [Session.runRounds]
    apply ih
    rcases session_step_rounds cfg it s with ⟨_, hr⟩ | ⟨r, _, hid, hr⟩
    · rw [hr]; exact h
    · rw [hr]
      simp [h, hid, List.range_succ]

/-- The id bookkeeping invariant `rounds.map id = range rounds.length`
is preserved by the follower driving loop. -/
theorem follower_runRounds_ids (cfg : Config) (n : Nat) (s : FollowerS)
    (h : s.rounds.map Round.id = List.range s.rounds.length) :
    (FollowerSession.runRounds cfg n s).2.rounds.map Round.id =
      List.range (FollowerSession.runRounds cfg n s).2.rounds.length := by
  induction n generalizing s with
  | zero => simpa [FollowerSession.runRounds] using h
  | succ n ih =>
    simp only [FollowerSession.runRounds]
    apply ih
    rcases follower_step_rounds cfg s with ⟨_, hr⟩ | ⟨r, _, hid, hr⟩
    · rw [hr]; exact h
    · rw [hr]
      simp [h, hid, List.range_succ]

/-- C2, claim theorem.  For both session variants: starting from a
freshly constructed session, after any number of `create_new_round`
calls the registered round ids are exactly `0, 1, …, total_rounds - 1`
in creation order (no gaps, no reuse); every round actually created
gets `id = total_rounds` at creation time and is appended to the round
map; and `total_rounds` never decreases.  Round execution happens
outside `create_new_round` (a failing round does not touch this
bookkeeping), so the invariant holds regardless of round outcomes. -/
theorem claim_C2 :
    (∀ (cfg : Config) (it : Interactor) (req : String) (n : Nat),
      (Session.runRounds cfg it n (Session.initState req)).2.rounds.map Round.id =
        List.range (Session.runRounds cfg it n (Session.initState req)).2.rounds.length)
  ∧ (∀ (cfg : Config) (it : Interactor) (s : SessionS) (r : Round),
      (Session.createNewRound cfg it s).1 = some r →
        r.id = s.totalRounds ∧
        (Session.createNewRound cfg it s).2.1.rounds = s.rounds ++ [r])
  ∧ (∀ (cfg : Config) (it : Interactor) (s : SessionS),
      s.totalRounds ≤ (Session.createNewRound cfg it s).2.1.totalRounds)
  ∧ (∀ (cfg : Config) (p : PlanReader) (n : Nat),
      (FollowerSession.runRounds cfg n (FollowerSession.initState p)).2.rounds.map Round.id =
        List.range
          (FollowerSession.runRounds cfg n (FollowerSession.initState p)).2.rounds.length)
  ∧ (∀ (cfg : Config) (s : FollowerS) (r : Round),
      (FollowerSession.createNewRound cfg s).1 = some r →
        r.id = s.totalRounds ∧
        (FollowerSession.createNewRound cfg s).2.1.rounds = s.rounds ++ [r])
  ∧ (∀ (cfg : Config) (s : FollowerS),
      s.totalRounds ≤ (FollowerSession.createNewRound cfg s).2.1.totalRounds) := by
  refine ⟨?_, ?_, ?_, ?_, ?_, ?_⟩
  · intro cfg it req n
    exact session_runRounds_ids cfg it n _ (by simp [Session.initState])
  · intro cfg it s r hr
    rcases session_step_rounds cfg it s with ⟨hn, _⟩ | ⟨r', hs, hid, hrr⟩
    · rw [hr] at hn; cases hn
    · rw [hr] at hs
      cases hs
      exact ⟨hid, hrr⟩
  · intro cfg it s
    rcases session_step_rounds cfg it s with ⟨_, hr⟩ | ⟨r, _, _, hr⟩ <;>
      simp [SessionS.totalRounds, hr]
  · intro cfg p n
    exact follower_runRounds_ids cfg n _ (by simp [FollowerSession.initState])
  · intro cfg s r hr
    rcases follower_step_rounds cfg s with ⟨hn, _⟩ | ⟨r', hs, hid, hrr⟩
    · rw [hr] at hn; cases hn
    · rw [hr] at hs
      cases hs
      exact ⟨hid, hrr⟩
  · intro cfg s
    rcases follower_step_rounds cfg s with ⟨_, hr⟩ | ⟨r, _, _, hr⟩ <;>
      simp [FollowerS.totalRounds, hr]

/-- C2, witness: the theorem applied at a concrete follower session
over a two-step plan driven for three rounds — ids come out
`[0, 1, 2]` — and at one concrete interactive creation step. -/
theorem claim_C2_witness :
    (FollowerSession.runRounds ⟨false, false⟩ 3
        (FollowerSession.initState ⟨"i", "h", ["s1", "s2"], 0, "t"⟩)).2.rounds.map Round.id =
      List.range
        (FollowerSession.runRounds ⟨false, false⟩ 3
          (FollowerSession.initState ⟨"i", "h", ["s1", "s2"], 0, "t"⟩)).2.rounds.length ∧
    (0 : Nat) ≤ (Session.createNewRound ⟨false, false⟩ ⟨fun _ => "a", fun _ => ("b", false)⟩
        (Session.initState "req")).2.1.totalRounds := by
  constructor
  · exact claim_C2.2.2.2.1 ⟨false, false⟩ ⟨"i", "h", ["s1", "s2"], 0, "t"⟩ 3
  · exact claim_C2.2.2.1 ⟨false, false⟩ ⟨fun _ => "a", fun _ => ("b", false)⟩
      (Session.initState "req")

/-- C3, claim theorem.  Interactive `next_request`: at round 0 with a
non-empty `init_request` it returns it, touching no prompt (state
unchanged, empty effect trace); at round 0 with an empty
`init_request` it invokes the first-request prompt exactly once
(consuming exactly one scripted first response) and returns what the
user supplies; at a later round it invokes the continuation prompt
exactly once, and when the prompt reports `is_complete = true` it sets
`finish` and still returns the prompt's text. -/
theorem claim_C3 :
    (∀ (it : Interactor) (s : SessionS), s.totalRounds = 0 → s.initRequest ≠ "" →
      Session.nextRequest it s = (s.initRequest, s, []))
  ∧ (∀ (it : Interactor) (s : SessionS), s.totalRounds = 0 → s.initRequest = "" →
      Session.nextRequest it s =
        (it.firstResp s.firstCount, { s with firstCount := s.firstCount + 1 },
          [Eff.printColor WELCOME_TEXT "cyan", Eff.firstPrompt]))
  ∧ (∀ (it : Interactor) (s : SessionS), s.totalRounds ≠ 0 →
      (it.newResp s.newCount).2 = true →
      Session.nextRequest it s =
        ((it.newResp s.newCount).1,
          { s with newCount := s.newCount + 1, finish := true }, [Eff.newPrompt]))
  ∧ (∀ (it : Interactor) (s : SessionS), s.totalRounds ≠ 0 →
      (it.newResp s.newCount).2 = false →
      Session.nextRequest it s =
        ((it.newResp s.newCount).1,
          { s with newCount := s.newCount + 1 }, [Eff.newPrompt])) := by
  refine ⟨?_, ?_, ?_, ?_⟩
  · intro it s h1 h2
    simp only [Session.nextRequest]
    rw [if_pos h1, if_pos h2]
  · intro it s h1 h2
    simp only [Session.nextRequest]
    rw [if_pos h1, if_neg (not_not_intro h2)]
  · intro it s h1 h2
    simp only [Session.nextRequest]
    rw [if_neg h1]
    simp [h2]
  · intro it s h1 h2
    simp only [Session.nextRequest]
    rw [if_neg h1]
    simp [h2]

/-- C3, witness: the theorem applied at concrete round-0 sessions with
and without an `init_request`, and at a concrete continuation round
whose prompt reports completion. -/
theorem claim_C3_witness :
    Session.nextRequest ⟨fun _ => "typed", fun _ => ("more", true)⟩
        (Session.initState "given") = ("given", Session.initState "given", []) ∧
    (Session.nextRequest ⟨fun _ => "typed", fun _ => ("more", true)⟩
        (Session.initState "")).1 = "typed" ∧
    Session.nextRequest ⟨fun _ => "typed", fun _ => ("more", true)⟩
        ⟨"", false, [⟨"r0", true, false, 0⟩], ⟨AgentTag.fresh, [], []⟩, 1, 0⟩ =
      ("more", ⟨"", true, [⟨"r0", true, false, 0⟩], ⟨AgentTag.fresh, [], []⟩, 1, 1⟩,
        [Eff.newPrompt]) := by
  refine ⟨?_, ?_, ?_⟩
  · exact claim_C3.1 ⟨fun _ => "typed", fun _ => ("more", true)⟩
      (Session.initState "given") rfl (by decide)
  · rw [claim_C3.2.1 ⟨fun _ => "typed", fun _ => ("more", true)⟩
      (Session.initState "") rfl rfl]
  · rw [claim_C3.2.2.1 ⟨fun _ => "typed", fun _ => ("more", true)⟩
      ⟨"", false, [⟨"r0", true, false, 0⟩], ⟨AgentTag.fresh, [], []⟩, 1, 0⟩
      (by decide) rfl]

/-- C4, claim theorem.  Follower `next_request`: while the plan has not
reported completion, round 0 returns the plan's declared host-agent
request (plan untouched) and a later round returns the plan's next
recorded step, advancing the cursor; once the plan reports completion
it sets `finish = true` and returns the empty string. -/
theorem claim_C4 :
    (∀ s : FollowerS, s.plan.taskFinished = false → s.totalRounds = 0 →
      FollowerSession.nextRequest s = (s.plan.getHostAgentRequest, s))
  ∧ (∀ s : FollowerS, s.plan.taskFinished = false → s.totalRounds ≠ 0 →
      FollowerSession.nextRequest s =
        (s.plan.steps.getD s.plan.cursor "",
          { s with plan := { s.plan with cursor := s.plan.cursor + 1 } }))
  ∧ (∀ s : FollowerS, s.plan.taskFinished = true →
      FollowerSession.nextRequest s = ("", { s with finish := true })) := by
  refine ⟨?_, ?_, ?_⟩
  · intro s h1 h2
    simp [FollowerSession.nextRequest, h1, h2]
  · intro s h1 h2
    simp [FollowerSession.nextRequest, PlanReader.nextStep, h1, h2]
  · intro s h1
    simp [FollowerSession.nextRequest, h1]

/-- C4, witness: the theorem applied at a concrete one-step plan —
round 0 yields the host request, round 1 yields the recorded step, and
the exhausted plan yields `""` with `finish` set. -/
theorem claim_C4_witness :
    FollowerSession.nextRequest
        ⟨false, [], ⟨"i", "host-req", ["step1"], 0, "t"⟩, ⟨AgentTag.fresh, [], []⟩,
          ⟨AgentTag.fresh, [], []⟩⟩ =
      ("host-req", ⟨false, [], ⟨"i", "host-req", ["step1"], 0, "t"⟩,
        ⟨AgentTag.fresh, [], []⟩, ⟨AgentTag.fresh, [], []⟩⟩) ∧
    (FollowerSession.nextRequest
        ⟨false, [⟨"host-req", true, false, 0⟩], ⟨"i", "host-req", ["step1"], 0, "t"⟩,
          ⟨AgentTag.fresh, [], []⟩, ⟨AgentTag.fresh, [], []⟩⟩).1 = "step1" ∧
    FollowerSession.nextRequest
        ⟨false, [⟨"host-req", true, false, 0⟩], ⟨"i", "host-req", ["step1"], 1, "t"⟩,
          ⟨AgentTag.fresh, [], []⟩, ⟨AgentTag.fresh, [], []⟩⟩ =
      ("", ⟨true, [⟨"host-req", true, false, 0⟩], ⟨"i", "host-req", ["step1"], 1, "t"⟩,
        ⟨AgentTag.fresh, [], []⟩, ⟨AgentTag.fresh, [], []⟩⟩) := by
  refine ⟨?_, ?_, ?_⟩
  · exact claim_C4.1 ⟨false, [], ⟨"i", "host-req", ["step1"], 0, "t"⟩,
      ⟨AgentTag.fresh, [], []⟩, ⟨AgentTag.fresh, [], []⟩⟩ rfl rfl
  · rw [claim_C4.2.1 ⟨false, [⟨"host-req", true, false, 0⟩],
      ⟨"i", "host-req", ["step1"], 0, "t"⟩, ⟨AgentTag.fresh, [], []⟩,
      ⟨AgentTag.fresh, [], []⟩⟩ rfl (by decide)]
    rfl
  · exact claim_C4.2.2 ⟨false, [⟨"host-req", true, false, 0⟩],
      ⟨"i", "host-req", ["step1"], 1, "t"⟩, ⟨AgentTag.fresh, [], []⟩,
      ⟨AgentTag.fresh, [], []⟩⟩ rfl

/-- C5, counterexample.  The claim's precondition is only that the
`finish` flag is false when `create_new_round` is called; but when the
wrapped plan has already reported completion, `next_request` flips
`finish` during the call, so `create_new_round` returns no round at
all — no banner is printed and no round is bound to any agent, even
though `finish = false` and `total_rounds = 0` held at call time.
Concrete input: a follower session over an exhausted plan (no recorded
steps), `finish = false`, no rounds yet. -/
theorem claim_C5_counterexample :
    (⟨false, [], ⟨"init", "host", [], 0, "task"⟩, ⟨AgentTag.fresh, [], []⟩,
        ⟨AgentTag.fresh, [], []⟩⟩ : FollowerS).finish = false ∧
    (⟨false, [], ⟨"init", "host", [], 0, "task"⟩, ⟨AgentTag.fresh, [], []⟩,
        ⟨AgentTag.fresh, [], []⟩⟩ : FollowerS).totalRounds = 0 ∧
    FollowerSession.createNewRound ⟨false, false⟩
        ⟨false, [], ⟨"init", "host", [], 0, "task"⟩, ⟨AgentTag.fresh, [], []⟩,
          ⟨AgentTag.fresh, [], []⟩⟩ =
      (none, ⟨true, [], ⟨"init", "host", [], 0, "task"⟩, ⟨AgentTag.fresh, [], []⟩,
        ⟨AgentTag.fresh, [], []⟩⟩, []) :=
  ⟨rfl, rfl, rfl⟩

/-- C5, amended claim theorem.  For every FollowerSession whose finish
flag is false *and whose plan has not yet reported completion* when
`create_new_round` is called: if `total_rounds = 0` the new round is
bound to the top-level host agent after the informational banner with
the plan's initial task description is emitted; if `total_rounds > 0`
the new round is bound to the application-scoped agent, whose
short-term memory and request history are cleared and which is tagged
with the continue-app state (in that order, before the round is
registered). -/
theorem claim_C5 :
    ∀ (cfg : Config) (s : FollowerS), s.finish = false → s.plan.taskFinished = false →
      (s.totalRounds = 0 →
        FollowerSession.createNewRound cfg s =
          (some ⟨s.plan.getHostAgentRequest, true, cfg.evaRound, 0⟩,
            { s with rounds := s.rounds ++ [⟨s.plan.getHostAgentRequest, true, cfg.evaRound, 0⟩] },
            [Eff.printColor "Complete the following request:" "yellow",
              Eff.printColor s.plan.getInitialRequest "cyan"])) ∧
      (s.totalRounds ≠ 0 →
        FollowerSession.createNewRound cfg s =
          (some ⟨s.plan.steps.getD s.plan.cursor "", false, cfg.evaRound, s.totalRounds⟩,
            { s with
                plan := { s.plan with cursor := s.plan.cursor + 1 },
                appAgent := ⟨AgentTag.continueApp, [], []⟩,
                rounds := s.rounds ++
                  [⟨s.plan.steps.getD s.plan.cursor "", false, cfg.evaRound, s.totalRounds⟩] },
            [Eff.clearMemory, Eff.clearRequests, Eff.setAppState])) := by
  intro cfg s hfin hplan
  rcases s with ⟨fin, rnds, plan, ha, aa⟩
  cases hfin
  constructor
  · intro h0
    simp only [FollowerS.totalRounds] at h0
    rw [List.length_eq_zero] at h0
    cases h0
    simp [FollowerSession.createNewRound, FollowerSession.nextRequest,
      FollowerS.isFinished, FollowerS.totalRounds, PlanReader.getHostAgentRequest,
      PlanReader.getInitialRequest, hplan]
  · intro h0
    simp only [FollowerS.totalRounds] at h0 ⊢
    simp [FollowerSession.createNewRound, FollowerSession.nextRequest,
      FollowerS.isFinished, FollowerS.totalRounds, PlanReader.nextStep,
      PlanReader.getHostAgentRequest, hplan, h0]

/-- C5, witness: the amended theorem applied at a concrete two-step
plan — round 0 binds the host agent after the banner; the state with
one registered round binds the app agent with cleared memory and the
continue-app tag. -/
theorem claim_C5_witness :
    FollowerSession.createNewRound ⟨false, true⟩
        ⟨false, [], ⟨"do it", "host-req", ["s1"], 0, "t"⟩, ⟨AgentTag.fresh, [], []⟩,
          ⟨AgentTag.fresh, ["m"], ["q"]⟩⟩ =
      (some ⟨"host-req", true, true, 0⟩,
        ⟨false, [⟨"host-req", true, true, 0⟩], ⟨"do it", "host-req", ["s1"], 0, "t"⟩,
          ⟨AgentTag.fresh, [], []⟩, ⟨AgentTag.fresh, ["m"], ["q"]⟩⟩,
        [Eff.printColor "Complete the following request:" "yellow",
          Eff.printColor "do it" "cyan"]) ∧
    FollowerSession.createNewRound ⟨false, true⟩
        ⟨false, [⟨"host-req", true, true, 0⟩], ⟨"do it", "host-req", ["s1"], 0, "t"⟩,
          ⟨AgentTag.fresh, [], []⟩, ⟨AgentTag.fresh, ["m"], ["q"]⟩⟩ =
      (some ⟨"s1", false, true, 1⟩,
        ⟨false, [⟨"host-req", true, true, 0⟩, ⟨"s1", false, true, 1⟩],
          ⟨"do it", "host-req", ["s1"], 1, "t"⟩, ⟨AgentTag.fresh, [], []⟩,
          ⟨AgentTag.continueApp, [], []⟩⟩,
        [Eff.clearMemory, Eff.clearRequests, Eff.setAppState]) := by
  constructor
  · exact (claim_C5 ⟨false, true⟩
      ⟨false, [], ⟨"do it", "host-req", ["s1"], 0, "t"⟩, ⟨AgentTag.fresh, [], []⟩,
        ⟨AgentTag.fresh, ["m"], ["q"]⟩⟩ rfl rfl).1 rfl
  · exact (claim_C5 ⟨false, true⟩
      ⟨false, [⟨"host-req", true, true, 0⟩], ⟨"do it", "host-req", ["s1"], 0, "t"⟩,
        ⟨AgentTag.fresh, [], []⟩, ⟨AgentTag.fresh, ["m"], ["q"]⟩⟩ rfl rfl).2 (by decide)

/-! ### Path helper lemmas -/

/-- `takeWhile` passes over a prefix on which the predicate holds. -/
theorem takeWhile_append_of_all {α : Type} (p : α → Bool) (l r : List α)
    (h : ∀ x ∈ l, p x = true) :
    (l ++ r).takeWhile p = l ++ r.takeWhile p := by
  induction l with
  | nil => simp
  | cons a t ih =>
    simp only [List.cons_append, List.takeWhile_cons]
    rw [h a (by simp)]
    simp [ih fun x hx => h x (by simp [hx])]

/-- `dropWhile` drops a prefix on which the predicate holds. -/
theorem dropWhile_append_of_all {α : Type} (p : α → Bool) (l r : List α)
    (h : ∀ x ∈ l, p x = true) :
    (l ++ r).dropWhile p = r.dropWhile p := by
  induction l with
  | nil => simp
  | cons a t ih =>
    simp only [List.cons_append, List.dropWhile_cons]
    rw [h a (by simp)]
    simp [ih fun x hx => h x (by simp [hx])]

/-- A character list that does not contain `a` has no member equal to
`a`. -/
theorem not_mem_of_contains_false {l : List Char} {a : Char}
    (h : l.contains a = false) : a ∉ l := by
  simpa using h

/-- The base name of a path without separators is the path itself. -/
theorem osBasename_no_slash (f : String) (h : f.data.contains '/' = false) :
    osBasename f = f := by
  unfold osBasename
  rw [List.takeWhile_eq_self_iff.mpr ?_]
  · rw [List.reverse_reverse]
  · intro x hx
    have hxm : x ∈ f.data := List.mem_reverse.mp hx
    have : x ≠ '/' := by
      intro he
      exact not_mem_of_contains_false h (he ▸ hxm)
    simpa using this

/-- The base name of `os.path.join(a, f)` for a separator-free entry
name `f` is `f` itself. -/
theorem osBasename_osJoin (a f : String) (h : f.data.contains '/' = false) :
    osBasename (osJoin a f) = f := by
  have hall : ∀ x ∈ f.data.reverse, (fun c => decide (c ≠ '/')) x = true := by
    intro x hx
    have hxm : x ∈ f.data := List.mem_reverse.mp hx
    have : x ≠ '/' := by
      intro he
      exact not_mem_of_contains_false h (he ▸ hxm)
    simpa using this
  unfold osJoin
  split_ifs with h1 h2 h3
  · exact osBasename_no_slash f h
  · exact osBasename_no_slash f h
  · unfold osBasename
    rw [String.data_append, List.reverse_append,
      takeWhile_append_of_all _ _ _ hall]
    have hhead : a.data.reverse.takeWhile (fun c => decide (c ≠ '/')) = [] := by
      rcases hr : a.data.reverse with _ | ⟨c, t⟩
      · simp
      · have hgl := List.head?_reverse a.data
        rw [hr, h3] at hgl
        have hc : c = '/' := by simpa using hgl
        simp [List.takeWhile_cons, hc]
    rw [hhead, List.append_nil, List.reverse_reverse]
  · unfold osBasename
    have hd : (a ++ "/" ++ f).data = a.data ++ '/' :: f.data := by
      rw [String.data_append, String.data_append, List.append_assoc]
      rfl
    rw [hd, List.reverse_append, List.reverse_cons, List.append_assoc,
      takeWhile_append_of_all _ _ _ hall]
    have hhead : (['/'] ++ a.data.reverse).takeWhile (fun c => decide (c ≠ '/')) = [] := by
      simp [List.takeWhile_cons]
    rw [hhead, List.append_nil, List.reverse_reverse]

/-- C6, claim theorem.  For every directory listing whose entries are
all plan files (separator-free names ending in `".json"`),
`create_follower_session_in_batch` yields exactly one FollowerSession
per listed file, in listing order, with id equal to the file's
position in the listing and task name
`task ++ "/" ++ <file name without extension>`. -/
theorem claim_C6 :
    ∀ (cfg : Config) (listing : String → List String) (task plan : String),
      (∀ f ∈ listing plan, strEndsWith f ".json" = true) →
      (∀ f ∈ listing plan, f.data.contains '/' = false) →
      (SessionFactory.createFollowerSessionInBatch cfg listing task plan).length
          = (listing plan).length ∧
      ∀ (i : Nat) (f : String), (listing plan)[i]? = some f →
        (SessionFactory.createFollowerSessionInBatch cfg listing task plan)[i]?
          = some (SessionU.follower (task ++ "/" ++ stemOfName f) (osJoin plan f)
              cfg.evaSession i) := by
  intro cfg listing task plan hjson hslash
  have hfilter : (listing plan).filter (fun f => strEndsWith f ".json") = listing plan :=
    List.filter_eq_self.mpr (by intro a ha; simpa using hjson a ha)
  simp only [SessionFactory.createFollowerSessionInBatch, SessionFactory.getPlanFiles,
    hfilter, List.map_map, List.zip_map']
  constructor
  · simp
  · intro i f hif
    have hfm : f ∈ listing plan := List.getElem?_mem hif
    rw [List.getElem?_map, List.getElem?_enum, List.getElem?_map, hif]
    simp only [Option.map_some']
    have hb : SessionFactory.getFileNameWithoutExtension (osJoin plan f)
        = stemOfName f := by
      simp only [SessionFactory.getFileNameWithoutExtension]
      rw [osBasename_osJoin plan f (hslash f hfm)]
    simp only [Function.comp_apply, hb]

/-- C6, witness: the theorem applied at the concrete listing
`["a.json", "b.json", "c.json"]` — three sessions, and the middle one
has id 1 and task name `"t/b"`. -/
theorem claim_C6_witness :
    (SessionFactory.createFollowerSessionInBatch ⟨false, false⟩
        (fun _ => ["a.json", "b.json", "c.json"]) "t" "plans").length = 3 ∧
    (SessionFactory.createFollowerSessionInBatch ⟨false, false⟩
        (fun _ => ["a.json", "b.json", "c.json"]) "t" "plans")[1]? =
      some (SessionU.follower "t/b" "plans/b.json" false 1) := by
  have h := claim_C6 ⟨false, false⟩ (fun _ => ["a.json", "b.json", "c.json"]) "t" "plans"
    (by decide) (by decide)
  refine ⟨h.1, ?_⟩
  rw [h.2 1 "b.json" rfl]
  decide

/-- C7, claim theorem.  `create_session` with any mode other than
`"normal"` and `"follower"` fails with the configuration error whose
message names the unsupported mode, and never returns a session list
(all-or-nothing). -/
theorem claim_C7 :
    ∀ (cfg : Config) (isFolder : String → Bool) (listing : String → List String)
      (task mode plan request : String), mode ≠ "normal" → mode ≠ "follower" →
      SessionFactory.createSession cfg isFolder listing task mode plan request =
        Except.error ("The " ++ mode ++ " mode is not supported.") ∧
      ∀ ss : List SessionU,
        SessionFactory.createSession cfg isFolder listing task mode plan request ≠
          Except.ok ss := by
  intro cfg isFolder listing task mode plan request h1 h2
  have herr : SessionFactory.createSession cfg isFolder listing task mode plan request =
      Except.error ("The " ++ mode ++ " mode is not supported.") := by
    simp only [SessionFactory.createSession]
    rw [if_neg h1, if_neg h2]
  exact ⟨herr, fun ss h => by rw [herr] at h; cases h⟩

/-- C7, witness: the theorem applied at the concrete mode `"bogus"` —
the result is exactly the error naming that mode, and no session list
is produced. -/
theorem claim_C7_witness :
    SessionFactory.createSession ⟨false, false⟩ (fun _ => false) (fun _ => [])
        "task" "bogus" "plan" "" =
      Except.error "The bogus mode is not supported." ∧
    SessionFactory.createSession ⟨false, false⟩ (fun _ => false) (fun _ => [])
        "task" "bogus" "plan" "" ≠ Except.ok [] := by
  have h := claim_C7 ⟨false, false⟩ (fun _ => false) (fun _ => [])
    "task" "bogus" "plan" "" (by decide) (by decide)
  exact ⟨h.1, h.2 []⟩

/-- C8, claim theorem.  An interactive session that is already finished
and has at least one round still pays for one more continuation
prompt: `create_new_round` invokes `interactor.new_request` exactly
once (the trace is exactly one `newPrompt` and the scripted-response
counter advances by one) before returning no round. -/
theorem claim_C8 :
    ∀ (cfg : Config) (it : Interactor) (s : SessionS), s.finish = true →
      s.totalRounds ≠ 0 →
      Session.createNewRound cfg it s =
        (none, { s with newCount := s.newCount + 1, finish := true },
          [Eff.newPrompt]) := by
  intro cfg it s h h0
  rcases s with ⟨ir, fin, rnds, ha, fc, nc⟩
  cases h
  simp only [SessionS.totalRounds] at h0
  simp only [Session.createNewRound, Session.nextRequest, SessionS.isFinished,
    SessionS.totalRounds]
  rw [if_neg h0]
  cases hr : (it.newResp nc).2 <;> simp [hr]

/-- C8, witness: the theorem applied at a concrete finished session
with one round — no round is returned, yet one continuation response
is consumed. -/
theorem claim_C8_witness :
    Session.createNewRound ⟨false, false⟩ ⟨fun _ => "a", fun _ => ("ignored", false)⟩
        ⟨"", true, [⟨"r0", true, false, 0⟩], ⟨AgentTag.fresh, [], []⟩, 0, 3⟩ =
      (none, ⟨"", true, [⟨"r0", true, false, 0⟩], ⟨AgentTag.fresh, [], []⟩, 0, 4⟩,
        [Eff.newPrompt]) := by
  exact claim_C8 ⟨false, false⟩ ⟨fun _ => "a", fun _ => ("ignored", false)⟩
    ⟨"", true, [⟨"r0", true, false, 0⟩], ⟨AgentTag.fresh, [], []⟩, 0, 3⟩ rfl (by decide)

/-! ### Round-trip of the JSON printer and parser

The lemmas below establish `loads (dumps v) = some v`, the heart of
claim C9: the 4-space-indented text `json.dump` writes is read back by
`json.load` as an equal value. -/

/-- `Char.ofNat` is left inverse to `Char.toNat` on valid scalar
values. -/
theorem toNat_ofNat_of_valid (n : Nat) (h : n.isValidChar) :
    (Char.ofNat n).toNat = n := by
  unfold Char.ofNat
  rw [dif_pos h]
  unfold Char.ofNatAux Char.toNat UInt32.toNat
  simp

/-- Scalar values below the surrogate range are valid. -/
theorem isValidChar_of_lt (n : Nat) (h : n < 55296) : n.isValidChar :=
  Or.inl h

/-- Decoding inverts the hexadecimal digit table. -/
theorem decodeHexDigit_hexDigitChar (d : Nat) (h : d < 16) :
    decodeHexDigit (hexDigitChar d) = some d := by
  interval_cases d <;> decide

/-- Decoding inverts the four-digit hexadecimal rendering. -/
theorem decodeHex4_hex4 (n : Nat) (h : n < 65536) :
    decodeHex4 (hexDigitChar (n / 4096 % 16)) (hexDigitChar (n / 256 % 16))
      (hexDigitChar (n / 16 % 16)) (hexDigitChar (n % 16)) = some n := by
  rw [decodeHex4,
    decodeHexDigit_hexDigitChar (n / 4096 % 16) (by omega),
    decodeHexDigit_hexDigitChar (n / 256 % 16) (by omega),
    decodeHexDigit_hexDigitChar (n / 16 % 16) (by omega),
    decodeHexDigit_hexDigitChar (n % 16) (by omega)]
  have harith : ((n / 4096 % 16 * 16 + n / 256 % 16) * 16 + n / 16 % 16) * 16 + n % 16
      = n := by omega
  simp [harith]

/-- Whitespace skipping is idempotent. -/
theorem skipWs_idem (cs : List Char) : skipWs (skipWs cs) = skipWs cs := by
  unfold skipWs
  induction cs with
  | nil => rfl
  | cons c l ih =>
    by_cases hc : isWsChar c
    · simp [List.dropWhile_cons, hc, ih]
    · simp [List.dropWhile_cons, hc]

/-- Whitespace skipping passes over a leading whitespace character. -/
theorem skipWs_cons_ws (c : Char) (cs : List Char) (h : isWsChar c = true) :
    skipWs (c :: cs) = skipWs cs := by
  simp [skipWs, List.dropWhile_cons, h]

/-- Whitespace skipping stops at a non-whitespace head. -/
theorem skipWs_cons_not_ws (c : Char) (cs : List Char) (h : isWsChar c = false) :
    skipWs (c :: cs) = c :: cs := by
  simp [skipWs, List.dropWhile_cons, h]

/-- Whitespace skipping passes over any run of spaces. -/
theorem skipWs_replicate_space (m : Nat) (cs : List Char) :
    skipWs (List.replicate m ' ' ++ cs) = skipWs cs := by
  induction m with
  | zero => rfl
  | succ m ih =>
    rw [List.replicate_succ, List.cons_append, skipWs_cons_ws _ _ (by decide), ih]

/-- Whitespace skipping passes over an indentation block. -/
theorem skipWs_indent (ind : Nat) (cs : List Char) :
    skipWs (indentChars ind ++ cs) = skipWs cs :=
  skipWs_replicate_space (ind * 4) cs

/-- The value parser ignores leading whitespace. -/
theorem parseVal_skipWs (fuel : Nat) (cs : List Char) :
    parseVal fuel (skipWs cs) = parseVal fuel cs := by
  cases fuel with
  | zero => rfl
  | succ fuel => simp only [parseVal, skipWs_idem]

/-- The array item parser ignores leading whitespace. -/
theorem parseArrItems_skipWs (fuel : Nat) (cs : List Char) :
    parseArrItems fuel (skipWs cs) = parseArrItems fuel cs := by
  cases fuel with
  | zero => rfl
  | succ fuel => simp only [parseArrItems, parseVal_skipWs]

/-- The object member parser ignores leading whitespace. -/
theorem parseObjItems_skipWs (fuel : Nat) (cs : List Char) :
    parseObjItems fuel (skipWs cs) = parseObjItems fuel cs := by
  cases fuel with
  | zero => rfl
  | succ fuel => simp only [parseObjItems, skipWs_idem]

/-- One step of the string-body parser on a backslash: delegate to
`parseEscape`. -/
theorem parseStringBody_backslash (fuel : Nat) (cs acc : List Char) :
    parseStringBody (fuel + 1) ('\\' :: cs) acc =
      match parseEscape cs with
      | some p => parseStringBody fuel p.2 (p.1 :: acc)
      | none => none := rfl

/-- One step of the string-body parser on the closing quote. -/
theorem parseStringBody_quote (fuel : Nat) (cs acc : List Char) :
    parseStringBody (fuel + 1) ('"' :: cs) acc =
      some (String.mk acc.reverse, cs) := rfl

/-- One step of the string-body parser on a literal character. -/
theorem parseStringBody_lit (fuel : Nat) (c : Char) (cs acc : List Char)
    (h1 : c ≠ '"') (h2 : c ≠ '\\') :
    parseStringBody (fuel + 1) (c :: cs) acc =
      parseStringBody fuel cs (c :: acc) := by
  rw [parseStringBody.eq_def]
  simp only []
  rw [if_neg h1, if_neg h2]

/-- `parseEscape` on a `\uXXXX` escape decoding outside the surrogate
range. -/
theorem parseEscape_u_bmp (a b d e : Char) (r : List Char) (n : Nat)
    (hdec : decodeHex4 a b d e = some n) (hn : n < 55296 ∨ 57344 ≤ n) :
    parseEscape ('u' :: a :: b :: d :: e :: r) = some (Char.ofNat n, r) := by
  unfold parseEscape
  simp only []
  rw [if_neg (by decide), if_neg (by decide), if_neg (by decide), if_neg (by decide),
    if_neg (by decide), if_neg (by decide), if_neg (by decide), if_neg (by decide),
    if_pos trivial]
  rw [hdec]
  simp only []
  rw [if_pos hn]

/-- `parseEscape` on a high surrogate escape followed by a low
surrogate escape: the two are recombined. -/
theorem parseEscape_u_sur (a b d e w x y z : Char) (r : List Char) (hi lo : Nat)
    (hdec1 : decodeHex4 a b d e = some hi) (hhi : 55296 ≤ hi ∧ hi < 56320)
    (hdec2 : decodeHex4 w x y z = some lo) (hlo : 56320 ≤ lo ∧ lo < 57344) :
    parseEscape ('u' :: a :: b :: d :: e :: '\\' :: 'u' :: w :: x :: y :: z :: r) =
      some (Char.ofNat (65536 + (hi - 55296) * 1024 + (lo - 56320)), r) := by
  unfold parseEscape
  simp only []
  rw [if_neg (by decide), if_neg (by decide), if_neg (by decide), if_neg (by decide),
    if_neg (by decide), if_neg (by decide), if_neg (by decide), if_neg (by decide),
    if_pos trivial]
  rw [hdec1]
  simp only []
  rw [if_neg (by omega), if_pos (by omega : hi < 56320)]
  unfold parseLowSurrogate
  simp only []
  rw [if_pos (by simp)]
  rw [hdec2]
  simp only []
  rw [if_pos hlo]

/-- The string-body parser undoes the escaping of one character,
consuming one unit of fuel. -/
theorem parseStringBody_escChar (c : Char) (fuel : Nat) (cs acc : List Char) :
    parseStringBody (fuel + 1) (escChar c ++ cs) acc =
      parseStringBody fuel cs (c :: acc) := by
  have hvalid : c.toNat < 55296 ∨ (57343 < c.toNat ∧ c.toNat < 1114112) := c.valid
  unfold escChar
  split_ifs with h1 h2 h3 h4 h5 h6 h7 h8 h9
  · subst h1; rfl
  · subst h2; rfl
  · subst h3; rfl
  · subst h4; rfl
  · subst h5; rfl
  · have hc : Char.ofNat 8 = c := by rw [← h6, Char.ofNat_toNat]
    rw [← hc]
    rfl
  · have hc : Char.ofNat 12 = c := by rw [← h7, Char.ofNat_toNat]
    rw [← hc]
    rfl
  · rw [List.singleton_append]
    exact parseStringBody_lit fuel c cs acc h1 h2
  · simp only [hex4, List.cons_append, List.nil_append]
    rw [parseStringBody_backslash,
      parseEscape_u_bmp _ _ _ _ _ c.toNat (decodeHex4_hex4 c.toNat h9) ?_]
    · simp only []
      rw [Char.ofNat_toNat]
    · rcases hvalid with hv | hv
      · exact Or.inl hv
      · exact Or.inr (by omega)
  · have hge : 65536 ≤ c.toNat := by omega
    have hlt : c.toNat < 1114112 := by
      rcases hvalid with hv | hv
      · omega
      · omega
    simp only [hex4, List.cons_append, List.nil_append, List.append_assoc]
    rw [parseStringBody_backslash,
      parseEscape_u_sur _ _ _ _ _ _ _ _ _
        (55296 + (c.toNat - 65536) / 1024) (56320 + (c.toNat - 65536) % 1024)
        (decodeHex4_hex4 _ (by omega)) (by omega)
        (decodeHex4_hex4 _ (by omega)) (by omega)]
    simp only []
    have harith : 65536 + (55296 + (c.toNat - 65536) / 1024 - 55296) * 1024 +
        (56320 + (c.toNat - 65536) % 1024 - 56320) = c.toNat := by omega
    rw [harith, Char.ofNat_toNat]

/-- The string-body parser undoes the escaping of a character list,
consuming one unit of fuel per character. -/
theorem parseStringBody_escList (l : List Char) : ∀ (fuel : Nat) (cs acc : List Char),
    parseStringBody (l.length + fuel) (escList l ++ cs) acc =
      parseStringBody fuel cs (l.reverse ++ acc) := by
  induction l with
  | nil => intro fuel cs acc; simp [escList]
  | cons c t ih =>
    intro fuel cs acc
    rw [escList, List.append_assoc]
    have hfuel : (c :: t).length + fuel = (t.length + fuel) + 1 := by
      simp [List.length_cons]
      omega
    rw [hfuel, parseStringBody_escChar, ih]
    simp

/-- The string-body parser reads back exactly the escaped rendering of
a string, up to and including the closing quote, for any sufficient
fuel. -/
theorem parseStringBody_dump (s : String) (cs : List Char) (fuel : Nat)
    (hf : s.data.length < fuel) :
    parseStringBody fuel (escList s.data ++ '"' :: cs) [] = some (s, cs) := by
  obtain ⟨k, hk⟩ := Nat.exists_eq_add_of_lt hf
  subst hk
  rw [show s.data.length + k + 1 = s.data.length + (k + 1) from rfl,
    parseStringBody_escList, parseStringBody_quote, List.append_nil,
    List.reverse_reverse]

/-- Escaping never shortens a character list. -/
theorem length_le_escList (l : List Char) : l.length ≤ (escList l).length := by
  induction l with
  | nil => simp [escList]
  | cons c t ih =>
    have hpos : 0 < (escChar c).length := by
      unfold escChar
      split_ifs <;> simp [hex4]
    rw [escList, List.length_append, List.length_cons]
    omega

/-- The digit table produces decimal digit characters. -/
theorem isDigitChar_digitChar (d : Nat) (h : d < 10) :
    isDigitChar (digitChar d) = true := by
  interval_cases d <;> decide

/-- Numeric value of a digit-table character. -/
theorem digitChar_toNat (d : Nat) (h : d < 10) : (digitChar d).toNat - 48 = d := by
  interval_cases d <;> decide

/-- Every character of `natDigits` is a decimal digit. -/
theorem natDigits_digits (n : Nat) : ∀ c ∈ natDigits n, isDigitChar c = true := by
  induction n using Nat.strong_induction_on with
  | _ n ih =>
    rw [natDigits]
    split_ifs with h
    · simp
    · intro c hc
      rcases List.mem_append.mp hc with hc | hc
      · exact ih (n / 10) (Nat.div_lt_self (Nat.pos_of_ne_zero h) (by decide)) c hc
      · have hcd : c = digitChar (n % 10) := by simpa using hc
        subst hcd
        exact isDigitChar_digitChar (n % 10) (Nat.mod_lt _ (by decide))

/-- `digitsToNat` over a snoc. -/
theorem digitsToNat_append (l : List Char) (c : Char) :
    digitsToNat (l ++ [c]) = 10 * digitsToNat l + (c.toNat - 48) := by
  simp [digitsToNat, List.foldl_append]

/-- `digitsToNat` inverts `natDigits`. -/
theorem digitsToNat_natDigits (n : Nat) : digitsToNat (natDigits n) = n := by
  induction n using Nat.strong_induction_on with
  | _ n ih =>
    rw [natDigits]
    split_ifs with h
    · simp [digitsToNat, h]
    · rw [digitsToNat_append,
        ih (n / 10) (Nat.div_lt_self (Nat.pos_of_ne_zero h) (by decide)),
        digitChar_toNat (n % 10) (Nat.mod_lt _ (by decide))]
      omega

/-- `natDigits` of a positive number is non-empty. -/
theorem natDigits_ne_nil (n : Nat) (h : n ≠ 0) : natDigits n ≠ [] := by
  rw [natDigits]
  simp [h]

/-- Every character of `natToChars` is a decimal digit. -/
theorem natToChars_digits (m : Nat) : ∀ c ∈ natToChars m, isDigitChar c = true := by
  unfold natToChars
  split_ifs with h
  · intro c hc
    have : c = '0' := by simpa using hc
    subst this
    decide
  · exact natDigits_digits m

/-- `digitsToNat` inverts `natToChars`. -/
theorem digitsToNat_natToChars (m : Nat) : digitsToNat (natToChars m) = m := by
  unfold natToChars
  split_ifs with h
  · subst h; decide
  · exact digitsToNat_natDigits m

/-- `natToChars` is never empty. -/
theorem natToChars_ne_nil (m : Nat) : natToChars m ≠ [] := by
  unfold natToChars
  split_ifs with h
  · simp
  · exact natDigits_ne_nil m h

/-- Decimal digit characters are not the minus sign. -/
theorem ne_dash_of_digit (c : Char) (h : isDigitChar c = true) : c ≠ '-' := by
  intro he
  subst he
  exact absurd h (by decide)

/-- The number parser reads back a non-negative decimal rendering. -/
theorem parseNum_pos (m : Nat) (rest : List Char)
    (hrest : rest.takeWhile isDigitChar = []) :
    parseNum (natToChars m ++ rest) = some (JsonVal.num (Int.ofNat m), rest) := by
  obtain ⟨c, t, hct⟩ : ∃ c t, natToChars m = c :: t := by
    rcases hn : natToChars m with _ | ⟨c, t⟩
    · exact absurd hn (natToChars_ne_nil m)
    · exact ⟨c, t, rfl⟩
  have hcd : isDigitChar c = true := natToChars_digits m c (by rw [hct]; simp)
  have hall : ∀ x ∈ c :: t, isDigitChar x = true := by
    rw [← hct]
    exact natToChars_digits m
  have htake : (c :: (t ++ rest)).takeWhile isDigitChar = c :: t := by
    have h2 := takeWhile_append_of_all isDigitChar (c :: t) rest hall
    rw [hrest, List.append_nil] at h2
    simpa using h2
  have hrid : rest.dropWhile isDigitChar = rest := by
    have h3 := List.takeWhile_append_dropWhile (p := isDigitChar) (l := rest)
    rw [hrest] at h3
    simpa using h3
  have hdrop : (c :: (t ++ rest)).dropWhile isDigitChar = rest := by
    have h2 := dropWhile_append_of_all isDigitChar (c :: t) rest hall
    rw [hrid] at h2
    simpa using h2
  rw [hct, List.cons_append, parseNum.eq_def]
  simp only []
  rw [if_neg (ne_dash_of_digit c hcd)]
  simp only [htake, hdrop]
  rw [if_neg (by simp)]
  rw [show digitsToNat (c :: t) = m from by rw [← hct, digitsToNat_natToChars]]

/-- The number parser reads back the decimal rendering of any
integer. -/
theorem parseNum_int (n : Int) (rest : List Char)
    (hrest : rest.takeWhile isDigitChar = []) :
    parseNum (intToChars n ++ rest) = some (JsonVal.num n, rest) := by
  cases n with
  | ofNat m => exact parseNum_pos m rest hrest
  | negSucc m =>
    rw [intToChars, List.cons_append, parseNum.eq_def]
    simp only []
    rw [if_pos trivial]
    have hall := natToChars_digits (m + 1)
    have htake := takeWhile_append_of_all isDigitChar _ rest hall
    rw [hrest, List.append_nil] at htake
    have hrid : rest.dropWhile isDigitChar = rest := by
      have h3 := List.takeWhile_append_dropWhile (p := isDigitChar) (l := rest)
      rw [hrest] at h3
      simpa using h3
    have hdrop := dropWhile_append_of_all isDigitChar _ rest hall
    rw [hrid] at hdrop
    simp only [htake, hdrop]
    rw [if_neg (natToChars_ne_nil (m + 1)), digitsToNat_natToChars]
    have : -(Int.ofNat (m + 1)) = Int.negSucc m := by
      rw [Int.negSucc_eq]
      simp
    rw [this]

/-- Every JSON value has at least one node. -/
theorem jsizeV_pos (v : JsonVal) : 0 < jsizeV v := by
  cases v <;> simp [jsizeV]

/-- Every array item list has positive measure. -/
theorem jsizeA_pos (xs : JsonArr) : 0 < jsizeA xs := by
  cases xs <;> simp [jsizeA]

/-- Every object member list has positive measure. -/
theorem jsizeO_pos (xs : JsonObj) : 0 < jsizeO xs := by
  cases xs <;> simp [jsizeO]

/-- A list with head `c` cannot start with a different character. -/
theorem take_cons_ne_of_head {c d : Char} (h : c ≠ d) (l r : List Char) (k : Nat) :
    ¬((c :: l).take (k + 1) = d :: r) := by
  intro heq
  rw [List.take_succ_cons] at heq
  injection heq with h1 _
  exact h h1

/-- A list not headed by `'n'` does not start with `"null"`. -/
theorem take_ne_null {c : Char} (h : c ≠ 'n') (l : List Char) :
    ¬((c :: l).take 4 = "null".data) :=
  take_cons_ne_of_head h l ['u', 'l', 'l'] 3

/-- A list not headed by `'t'` does not start with `"true"`. -/
theorem take_ne_true {c : Char} (h : c ≠ 't') (l : List Char) :
    ¬((c :: l).take 4 = "true".data) :=
  take_cons_ne_of_head h l ['r', 'u', 'e'] 3

/-- A list not headed by `'f'` does not start with `"false"`. -/
theorem take_ne_false {c : Char} (h : c ≠ 'f') (l : List Char) :
    ¬((c :: l).take 5 = "false".data) :=
  take_cons_ne_of_head h l ['a', 'l', 's', 'e'] 4

/-- Bounds of a decimal digit character. -/
theorem isDigitChar_bounds (c : Char) (h : isDigitChar c = true) :
    48 ≤ c.toNat ∧ c.toNat ≤ 57 := by
  unfold isDigitChar at h
  simpa using h

/-- A decimal digit character is none of the parser's structural
characters. -/
theorem digit_head_facts (c : Char) (h : isDigitChar c = true) :
    isWsChar c = false ∧ c ≠ 'n' ∧ c ≠ 't' ∧ c ≠ 'f' ∧ c ≠ '"' ∧ c ≠ '[' ∧
      c ≠ obrace ∧ c ≠ ']' ∧ c ≠ cbrace ∧ c ≠ ',' := by
  have hb := isDigitChar_bounds c h
  refine ⟨?_, ?_, ?_, ?_, ?_, ?_, ?_, ?_, ?_, ?_⟩
  · rcases hw : isWsChar c with _ | _
    · rfl
    · exfalso
      have hw2 : c = ' ' ∨ c = '\n' ∨ c = '\t' ∨ c = '\r' := by
        simpa [isWsChar, or_assoc] using hw
      rcases hw2 with h1 | h1 | h1 | h1 <;> (subst h1; revert h; decide)
  all_goals (intro he; subst he; revert h; decide)

/-- A run of decimal digits cannot start at a non-digit character. -/
theorem takeWhile_digit_cons_false (c : Char) (l : List Char)
    (h : isDigitChar c = false) : (c :: l).takeWhile isDigitChar = [] := by
  simp [List.takeWhile_cons, h]

/-- The value parser passes over one leading whitespace character. -/
theorem parseVal_cons_ws (fuel : Nat) (c : Char) (cs : List Char)
    (h : isWsChar c = true) : parseVal fuel (c :: cs) = parseVal fuel cs := by
  rw [← parseVal_skipWs fuel (c :: cs), skipWs_cons_ws c cs h, parseVal_skipWs]

/-- The array item parser passes over one leading whitespace
character. -/
theorem parseArrItems_cons_ws (fuel : Nat) (c : Char) (cs : List Char)
    (h : isWsChar c = true) : parseArrItems fuel (c :: cs) = parseArrItems fuel cs := by
  rw [← parseArrItems_skipWs fuel (c :: cs), skipWs_cons_ws c cs h, parseArrItems_skipWs]

/-- The object member parser passes over one leading whitespace
character. -/
theorem parseObjItems_cons_ws (fuel : Nat) (c : Char) (cs : List Char)
    (h : isWsChar c = true) : parseObjItems fuel (c :: cs) = parseObjItems fuel cs := by
  rw [← parseObjItems_skipWs fuel (c :: cs), skipWs_cons_ws c cs h, parseObjItems_skipWs]

/-- The value parser passes over leading indentation. -/
theorem parseVal_indent (fuel ind : Nat) (cs : List Char) :
    parseVal fuel (indentChars ind ++ cs) = parseVal fuel cs := by
  rw [← parseVal_skipWs fuel (indentChars ind ++ cs), skipWs_indent, parseVal_skipWs]

/-- The printed form of any value starts with a non-whitespace
character that is neither a closing bracket, a closing brace, a comma
nor a colon. -/
theorem dumpVal_head (ind : Nat) (v : JsonVal) :
    ∃ c t, dumpVal ind v = c :: t ∧ isWsChar c = false ∧ c ≠ ']' ∧ c ≠ cbrace ∧
      c ≠ ',' ∧ c ≠ ':' := by
  cases v with
  | null => exact ⟨'n', ['u', 'l', 'l'], rfl, by decide, by decide, by decide,
      by decide, by decide⟩
  | bool b =>
    cases b with
    | true => exact ⟨'t', ['r', 'u', 'e'], rfl, by decide, by decide, by decide,
        by decide, by decide⟩
    | false => exact ⟨'f', ['a', 'l', 's', 'e'], rfl, by decide, by decide, by decide,
        by decide, by decide⟩
  | num n =>
    cases n with
    | ofNat m =>
      obtain ⟨c, t, hct⟩ : ∃ c t, natToChars m = c :: t := by
        rcases hn : natToChars m with _ | ⟨c, t⟩
        · exact absurd hn (natToChars_ne_nil m)
        · exact ⟨c, t, rfl⟩
      have hcd : isDigitChar c = true := natToChars_digits m c (by rw [hct]; simp)
      have hfacts := digit_head_facts c hcd
      refine ⟨c, t, hct, hfacts.1, hfacts.2.2.2.2.2.2.2.1, hfacts.2.2.2.2.2.2.2.2.1,
        hfacts.2.2.2.2.2.2.2.2.2, ?_⟩
      intro he
      subst he
      revert hcd
      decide
    | negSucc m =>
      exact ⟨'-', natToChars (m + 1), rfl, by decide, by decide, by decide,
        by decide, by decide⟩
  | str s =>
    exact ⟨'"', escList s.data ++ ['"'], rfl, by decide, by decide, by decide,
      by decide, by decide⟩
  | arr xs =>
    cases xs with
    | nil => exact ⟨'[', [']'], rfl, by decide, by decide, by decide, by decide,
        by decide⟩
    | cons v rest =>
      refine ⟨'[', '\n' :: dumpArrItems (ind + 1) (JsonArr.cons v rest) ++
        '\n' :: indentChars ind ++ [']'], ?_, by decide, by decide, by decide,
        by decide, by decide⟩
      simp only [dumpVal, List.cons_append]
  | obj xs =>
    cases xs with
    | nil => exact ⟨obrace, [cbrace], rfl, by decide, by decide, by decide,
        by decide, by decide⟩
    | cons k v rest =>
      refine ⟨obrace, '\n' :: dumpObjItems (ind + 1) (JsonObj.cons k v rest) ++
        '\n' :: indentChars ind ++ [cbrace], ?_, by decide, by decide, by decide,
        by decide, by decide⟩
      simp only [dumpVal, List.cons_append]

/-- `take 1` of a cons. -/
theorem take1_eq (c : Char) (l : List Char) : List.take 1 (c :: l) = [c] := rfl

/-- `take 4` of a four-cons. -/
theorem take4_eq (c1 c2 c3 c4 : Char) (l : List Char) :
    List.take 4 (c1 :: c2 :: c3 :: c4 :: l) = [c1, c2, c3, c4] := rfl

/-- `take 5` of a five-cons. -/
theorem take5_eq (c1 c2 c3 c4 c5 : Char) (l : List Char) :
    List.take 5 (c1 :: c2 :: c3 :: c4 :: c5 :: l) = [c1, c2, c3, c4, c5] := rfl

/-- The array item parser passes over leading indentation. -/
theorem parseArrItems_indent (fuel ind : Nat) (cs : List Char) :
    parseArrItems fuel (indentChars ind ++ cs) = parseArrItems fuel cs := by
  rw [← parseArrItems_skipWs fuel (indentChars ind ++ cs), skipWs_indent,
    parseArrItems_skipWs]

/-- The object member parser passes over leading indentation. -/
theorem parseObjItems_indent (fuel ind : Nat) (cs : List Char) :
    parseObjItems fuel (indentChars ind ++ cs) = parseObjItems fuel cs := by
  rw [← parseObjItems_skipWs fuel (indentChars ind ++ cs), skipWs_indent,
    parseObjItems_skipWs]

/-- The printed item block of a non-empty array is its indentation
followed by a non-whitespace character that closes nothing. -/
theorem dumpArrItems_shape (ind : Nat) (v : JsonVal) (xs : JsonArr) :
    ∃ c t, dumpArrItems ind (JsonArr.cons v xs) = indentChars ind ++ (c :: t) ∧
      isWsChar c = false ∧ c ≠ ']' ∧ c ≠ cbrace := by
  obtain ⟨c, t, hd, hws, h1, h2, _, _⟩ := dumpVal_head ind v
  cases xs with
  | nil =>
    exact ⟨c, t, by simp only [dumpArrItems, hd], hws, h1, h2⟩
  | cons w ys =>
    refine ⟨c, t ++ ',' :: '\n' :: dumpArrItems ind (JsonArr.cons w ys), ?_, hws, h1, h2⟩
    simp only [dumpArrItems, hd, List.cons_append, List.append_assoc]

/-- The printed member block of a non-empty object is its indentation
followed by the opening quote of the first key. -/
theorem dumpObjItems_shape (ind : Nat) (k : String) (v : JsonVal) (xs : JsonObj) :
    ∃ t, dumpObjItems ind (JsonObj.cons k v xs) = indentChars ind ++ ('"' :: t) := by
  cases xs with
  | nil =>
    refine ⟨escList k.data ++ ['"'] ++ (':' :: ' ' :: dumpVal ind v), ?_⟩
    simp [dumpObjItems, dumpString, List.cons_append, List.append_assoc]
  | cons k2 v2 ys =>
    refine ⟨escList k.data ++ ['"'] ++ (':' :: ' ' :: dumpVal ind v ++
      ',' :: '\n' :: dumpObjItems ind (JsonObj.cons k2 v2 ys)), ?_⟩
    simp [dumpObjItems, dumpString, List.cons_append, List.append_assoc]

mutual

/-- The parser reads back exactly the printed form of any value, for
any nesting level, any sufficient fuel and any non-digit-led
continuation. -/
theorem rt_val (v : JsonVal) : ∀ (ind fuel : Nat) (rest : List Char),
    jsizeV v < fuel → rest.takeWhile isDigitChar = [] →
    parseVal fuel (dumpVal ind v ++ rest) = some (v, rest) := by
  intro ind fuel rest hfuel hrest
  obtain ⟨f, rfl⟩ : ∃ f, fuel = f + 1 := by
    cases fuel with
    | zero => exact absurd hfuel (by omega)
    | succ f => exact ⟨f, rfl⟩
  cases v with
  | null =>
    simp only [dumpVal]
    rw [show "null".data ++ rest = 'n' :: 'u' :: 'l' :: 'l' :: rest from rfl,
      parseVal.eq_def]
    simp only []
    rw [skipWs_cons_not_ws _ _ (by decide), if_pos (take4_eq 'n' 'u' 'l' 'l' rest)]
    rfl
  | bool b =>
    cases b with
    | true =>
      simp only [dumpVal]
      rw [show "true".data ++ rest = 't' :: 'r' :: 'u' :: 'e' :: rest from rfl,
        parseVal.eq_def]
      simp only []
      rw [skipWs_cons_not_ws _ _ (by decide),
        if_neg (take_ne_null (by decide) _), if_pos (take4_eq 't' 'r' 'u' 'e' rest)]
      rfl
    | false =>
      simp only [dumpVal]
      rw [show "false".data ++ rest = 'f' :: 'a' :: 'l' :: 's' :: 'e' :: rest from rfl,
        parseVal.eq_def]
      simp only []
      rw [skipWs_cons_not_ws _ _ (by decide),
        if_neg (take_ne_null (by decide) _), if_neg (take_ne_true (by decide) _),
        if_pos (take5_eq 'f' 'a' 'l' 's' 'e' rest)]
      rfl
  | num n =>
    simp only [dumpVal]
    have hhead : ∃ c t, intToChars n = c :: t ∧ isWsChar c = false ∧ c ≠ 'n' ∧
        c ≠ 't' ∧ c ≠ 'f' ∧ c ≠ '"' ∧ c ≠ '[' ∧ c ≠ obrace := by
      cases n with
      | ofNat m =>
        obtain ⟨c, t, hct⟩ : ∃ c t, natToChars m = c :: t := by
          rcases hn : natToChars m with _ | ⟨c, t⟩
          · exact absurd hn (natToChars_ne_nil m)
          · exact ⟨c, t, rfl⟩
        have hcd : isDigitChar c = true := natToChars_digits m c (by rw [hct]; simp)
        have hf2 := digit_head_facts c hcd
        exact ⟨c, t, hct, hf2.1, hf2.2.1, hf2.2.2.1, hf2.2.2.2.1, hf2.2.2.2.2.1,
          hf2.2.2.2.2.2.1, hf2.2.2.2.2.2.2.1⟩
      | negSucc m =>
        exact ⟨'-', natToChars (m + 1), rfl, by decide, by decide, by decide,
          by decide, by decide, by decide, by decide⟩
    obtain ⟨c, t, hct, hws, hn, ht, hf2, hq, hb, ho⟩ := hhead
    rw [hct, List.cons_append, parseVal.eq_def]
    simp only []
    rw [skipWs_cons_not_ws _ _ hws,
      if_neg (take_ne_null hn _), if_neg (take_ne_true ht _),
      if_neg (take_ne_false hf2 _)]
    simp only []
    rw [if_neg hq, if_neg hb, if_neg ho, ← List.cons_append, ← hct]
    exact parseNum_int n rest hrest
  | str s =>
    simp only [dumpVal, dumpString]
    rw [show ('"' :: escList s.data ++ ['"']) ++ rest =
        '"' :: (escList s.data ++ '"' :: rest) from by
      simp [List.cons_append, List.append_assoc]]
    rw [parseVal.eq_def]
    simp only []
    rw [skipWs_cons_not_ws _ _ (by decide),
      if_neg (take_ne_null (by decide) _), if_neg (take_ne_true (by decide) _),
      if_neg (take_ne_false (by decide) _)]
    simp only []
    rw [if_pos (by decide)]
    have hbound : s.data.length < (escList s.data ++ '"' :: rest).length + 1 := by
      have h1 := length_le_escList s.data
      simp only [List.length_append, List.length_cons]
      omega
    rw [parseStringBody_dump s rest _ hbound]
  | arr xs =>
    cases xs with
    | nil =>
      simp only [dumpVal, List.cons_append, List.nil_append]
      rw [parseVal.eq_def]
      simp only []
      rw [skipWs_cons_not_ws _ _ (by decide),
        if_neg (take_ne_null (by decide) _), if_neg (take_ne_true (by decide) _),
        if_neg (take_ne_false (by decide) _)]
      simp only []
      rw [if_neg (by decide), if_pos (by decide),
        skipWs_cons_not_ws _ _ (by decide), if_pos (take1_eq ']' rest)]
      rfl
    | cons v xs' =>
      simp only [dumpVal, List.cons_append, List.append_assoc, List.singleton_append, List.nil_append]
      obtain ⟨c, t, hshape, hws, hne1, hne2⟩ := dumpArrItems_shape (ind + 1) v xs'
      have hsize : jsizeA (JsonArr.cons v xs') < f := by
        simp only [jsizeV] at hfuel
        omega
      rw [parseVal.eq_def]
      simp only []
      rw [skipWs_cons_not_ws _ _ (by decide),
        if_neg (take_ne_null (by decide) _), if_neg (take_ne_true (by decide) _),
        if_neg (take_ne_false (by decide) _)]
      simp only []
      rw [if_neg (by decide), if_pos (by decide), skipWs_cons_ws _ _ (by decide),
        hshape, List.append_assoc, skipWs_indent, List.cons_append,
        skipWs_cons_not_ws _ _ hws,
        if_neg (take_cons_ne_of_head hne1 _ [] 0)]
      have harr : parseArrItems f
          (c :: (t ++ ('\n' :: (indentChars ind ++ ']' :: rest)))) =
          some (JsonArr.cons v xs', rest) := by
        rw [← List.cons_append, ← parseArrItems_indent f (ind + 1),
          ← List.append_assoc, ← hshape]
        exact rt_arr (JsonArr.cons v xs') ind f rest (by simp) hsize
      rw [harr]
  | obj xs =>
    cases xs with
    | nil =>
      simp only [dumpVal, List.cons_append, List.nil_append]
      rw [parseVal.eq_def]
      simp only []
      rw [skipWs_cons_not_ws _ _ (by decide),
        if_neg (take_ne_null (by decide) _), if_neg (take_ne_true (by decide) _),
        if_neg (take_ne_false (by decide) _)]
      simp only []
      rw [if_neg (by decide), if_neg (by decide), if_pos (by decide),
        skipWs_cons_not_ws _ _ (by decide), if_pos (take1_eq cbrace rest)]
      rfl
    | cons k v xs' =>
      simp only [dumpVal, List.cons_append, List.append_assoc, List.singleton_append, List.nil_append]
      obtain ⟨t, hshape⟩ := dumpObjItems_shape (ind + 1) k v xs'
      have hsize : jsizeO (JsonObj.cons k v xs') < f := by
        simp only [jsizeV] at hfuel
        omega
      rw [parseVal.eq_def]
      simp only []
      rw [skipWs_cons_not_ws _ _ (by decide),
        if_neg (take_ne_null (by decide) _), if_neg (take_ne_true (by decide) _),
        if_neg (take_ne_false (by decide) _)]
      simp only []
      rw [if_neg (by decide), if_neg (by decide), if_pos (by decide),
        skipWs_cons_ws _ _ (by decide),
        hshape, List.append_assoc, skipWs_indent, List.cons_append,
        skipWs_cons_not_ws _ _ (by decide),
        if_neg (take_cons_ne_of_head (by decide : ('"' : Char) ≠ cbrace) _ [] 0)]
      have hobj : parseObjItems f
          ('"' :: (t ++ ('\n' :: (indentChars ind ++ cbrace :: rest)))) =
          some (JsonObj.cons k v xs', rest) := by
        rw [← List.cons_append, ← parseObjItems_indent f (ind + 1),
          ← List.append_assoc, ← hshape]
        exact rt_obj (JsonObj.cons k v xs') ind f rest (by simp) hsize
      rw [hobj]

/-- The array item parser reads back exactly the printed item block of
a non-empty array, including the newline, dedent and closing
bracket. -/
theorem rt_arr (xs : JsonArr) : ∀ (ind fuel : Nat) (rest : List Char),
    xs ≠ JsonArr.nil → jsizeA xs < fuel →
    parseArrItems fuel
      (dumpArrItems (ind + 1) xs ++ '\n' :: (indentChars ind ++ ']' :: rest)) =
      some (xs, rest) := by
  intro ind fuel rest hne hfuel
  obtain ⟨f, rfl⟩ : ∃ f, fuel = f + 1 := by
    cases fuel with
    | zero => exact absurd hfuel (by omega)
    | succ f => exact ⟨f, rfl⟩
  cases xs with
  | nil => exact absurd rfl hne
  | cons v xs' =>
    rw [parseArrItems.eq_def]
    simp only []
    cases xs' with
    | nil =>
      have hsize : jsizeV v < f := by
        simp only [jsizeA] at hfuel
        have := jsizeA_pos JsonArr.nil
        omega
      simp only [dumpArrItems, List.append_assoc]
      rw [parseVal_indent,
        rt_val v (ind + 1) f _ hsize (takeWhile_digit_cons_false _ _ (by decide))]
      simp only []
      rw [skipWs_cons_ws _ _ (by decide), skipWs_indent,
        skipWs_cons_not_ws _ _ (by decide),
        if_neg (take_cons_ne_of_head (by decide : (']' : Char) ≠ ',') _ [] 0),
        if_pos (take1_eq ']' rest)]
      rfl
    | cons w ys =>
      have hsizev : jsizeV v < f := by
        simp only [jsizeA] at hfuel
        have := jsizeA_pos (JsonArr.cons w ys)
        omega
      have hsizer : jsizeA (JsonArr.cons w ys) < f := by
        simp only [jsizeA] at hfuel ⊢
        have := jsizeV_pos v
        omega
      simp only [dumpArrItems, List.cons_append, List.append_assoc]
      rw [parseVal_indent,
        rt_val v (ind + 1) f _ hsizev (takeWhile_digit_cons_false _ _ (by decide))]
      simp only []
      rw [skipWs_cons_not_ws _ _ (by decide), if_pos (take1_eq ',' _)]
      simp only [List.drop_succ_cons, List.drop_zero]
      rw [parseArrItems_cons_ws _ _ _ (by decide),
        rt_arr (JsonArr.cons w ys) ind f rest (by simp) hsizer]

/-- The object member parser reads back exactly the printed member
block of a non-empty object, including the newline, dedent and closing
brace. -/
theorem rt_obj (xs : JsonObj) : ∀ (ind fuel : Nat) (rest : List Char),
    xs ≠ JsonObj.nil → jsizeO xs < fuel →
    parseObjItems fuel
      (dumpObjItems (ind + 1) xs ++ '\n' :: (indentChars ind ++ cbrace :: rest)) =
      some (xs, rest) := by
  intro ind fuel rest hne hfuel
  obtain ⟨f, rfl⟩ : ∃ f, fuel = f + 1 := by
    cases fuel with
    | zero => exact absurd hfuel (by omega)
    | succ f => exact ⟨f, rfl⟩
  cases xs with
  | nil => exact absurd rfl hne
  | cons k v xs' =>
    rw [parseObjItems.eq_def]
    simp only []
    cases xs' with
    | nil =>
      have hsize : jsizeV v < f := by
        simp only [jsizeO] at hfuel
        have := jsizeO_pos JsonObj.nil
        omega
      simp only [dumpObjItems, dumpString, List.cons_append, List.append_assoc,
        List.singleton_append, List.nil_append]
      rw [skipWs_indent, skipWs_cons_not_ws _ _ (by decide)]
      simp only []
      rw [if_pos (by decide)]
      have hbound : k.data.length <
          (escList k.data ++ '"' :: (':' :: ' ' ::
            (dumpVal (ind + 1) v ++ '\n' :: (indentChars ind ++ cbrace :: rest)))).length
            + 1 := by
        have h1 := length_le_escList k.data
        simp only [List.length_append, List.length_cons]
        omega
      rw [parseStringBody_dump k _ _ hbound]
      simp only []
      rw [skipWs_cons_not_ws _ _ (by decide), if_pos (take1_eq ':' _)]
      simp only [List.drop_succ_cons, List.drop_zero]
      rw [parseVal_cons_ws _ _ _ (by decide),
        rt_val v (ind + 1) f _ hsize (takeWhile_digit_cons_false _ _ (by decide))]
      simp only []
      rw [skipWs_cons_ws _ _ (by decide), skipWs_indent,
        skipWs_cons_not_ws _ _ (by decide),
        if_neg (take_cons_ne_of_head (by decide : Ne cbrace ',') _ [] 0),
        if_pos (take1_eq cbrace rest)]
      rfl
    | cons k2 v2 ys =>
      have hsizev : jsizeV v < f := by
        simp only [jsizeO] at hfuel
        have := jsizeO_pos (JsonObj.cons k2 v2 ys)
        omega
      have hsizer : jsizeO (JsonObj.cons k2 v2 ys) < f := by
        simp only [jsizeO] at hfuel ⊢
        have := jsizeV_pos v
        omega
      simp only [dumpObjItems, dumpString, List.cons_append, List.append_assoc,
        List.singleton_append, List.nil_append]
      rw [skipWs_indent, skipWs_cons_not_ws _ _ (by decide)]
      simp only []
      rw [if_pos (by decide)]
      have hbound : k.data.length <
          (escList k.data ++ '"' :: (':' :: ' ' ::
            (dumpVal (ind + 1) v ++ ',' :: '\n' ::
              (dumpObjItems (ind + 1) (JsonObj.cons k2 v2 ys) ++
                '\n' :: (indentChars ind ++ cbrace :: rest))))).length + 1 := by
        have h1 := length_le_escList k.data
        simp only [List.length_append, List.length_cons]
        omega
      rw [parseStringBody_dump k _ _ hbound]
      simp only []
      rw [skipWs_cons_not_ws _ _ (by decide), if_pos (take1_eq ':' _)]
      simp only [List.drop_succ_cons, List.drop_zero]
      rw [parseVal_cons_ws _ _ _ (by decide),
        rt_val v (ind + 1) f _ hsizev (takeWhile_digit_cons_false _ _ (by decide))]
      simp only []
      rw [skipWs_cons_not_ws _ _ (by decide), if_pos (take1_eq ',' _)]
      simp only [List.drop_succ_cons, List.drop_zero]
      rw [parseObjItems_cons_ws _ _ _ (by decide),
        rt_obj (JsonObj.cons k2 v2 ys) ind f rest (by simp) hsizer]

end

mutual

/-- The printed form of a value is at least as long as its node
count. -/
theorem jsizeV_le_len (v : JsonVal) : ∀ ind : Nat, jsizeV v ≤ (dumpVal ind v).length := by
  intro ind
  cases v with
  | null => simp only [dumpVal, jsizeV]; decide
  | bool b => cases b <;> (simp only [dumpVal, jsizeV]; decide)
  | num n =>
    cases n with
    | ofNat m =>
      have h1 : natToChars m ≠ [] := natToChars_ne_nil m
      have h2 : 0 < (natToChars m).length := List.length_pos.mpr h1
      simp only [dumpVal, intToChars, jsizeV]
      omega
    | negSucc m =>
      simp [dumpVal, intToChars, jsizeV]
  | str s => simp [dumpVal, dumpString, jsizeV]
  | arr xs =>
    cases xs with
    | nil => simp only [dumpVal, jsizeV, jsizeA]; decide
    | cons v rest =>
      have h1 := jsizeA_le_len (JsonArr.cons v rest) (ind + 1)
      simp only [dumpVal, jsizeV, List.length_append, List.length_cons]
      omega
  | obj xs =>
    cases xs with
    | nil => simp only [dumpVal, jsizeV, jsizeO]; decide
    | cons k v rest =>
      have h1 := jsizeO_le_len (JsonObj.cons k v rest) (ind + 1)
      simp only [dumpVal, jsizeV, List.length_append, List.length_cons]
      omega

/-- The printed item block of an array is, up to the constant 2, at
least as long as the item list's measure. -/
theorem jsizeA_le_len (xs : JsonArr) : ∀ ind : Nat,
    jsizeA xs ≤ (dumpArrItems ind xs).length + 2 := by
  intro ind
  cases xs with
  | nil => simp [dumpArrItems, jsizeA]
  | cons v rest =>
    cases rest with
    | nil =>
      have h1 := jsizeV_le_len v ind
      simp only [dumpArrItems, jsizeA, List.length_append]
      omega
    | cons w ys =>
      have h1 := jsizeV_le_len v ind
      have h2 := jsizeA_le_len (JsonArr.cons w ys) ind
      simp only [jsizeA] at h2
      simp only [dumpArrItems, jsizeA, List.length_append, List.length_cons]
      omega

/-- The printed member block of an object is, up to the constant 2, at
least as long as the member list's measure. -/
theorem jsizeO_le_len (xs : JsonObj) : ∀ ind : Nat,
    jsizeO xs ≤ (dumpObjItems ind xs).length + 2 := by
  intro ind
  cases xs with
  | nil => simp [dumpObjItems, jsizeO]
  | cons k v rest =>
    cases rest with
    | nil =>
      have h1 := jsizeV_le_len v ind
      simp only [dumpObjItems, jsizeO, List.length_append, List.length_cons]
      omega
    | cons k2 v2 ys =>
      have h1 := jsizeV_le_len v ind
      have h2 := jsizeO_le_len (JsonObj.cons k2 v2 ys) ind
      simp only [jsizeO] at h2
      simp only [dumpObjItems, jsizeO, List.length_append, List.length_cons]
      omega

end

/-- Round-trip: `json.load` reads back exactly the value that
`json.dump(..., indent=4)` wrote. -/
theorem loads_dumps (v : JsonVal) : loads (dumps v) = some v := by
  unfold loads dumps
  have hdata : (String.mk (dumpVal 0 v)).data = dumpVal 0 v := rfl
  rw [hdata]
  have hfuel : jsizeV v < (dumpVal 0 v).length + 1 := by
    have := jsizeV_le_len v 0
    omega
  have h := rt_val v 0 ((dumpVal 0 v).length + 1) [] hfuel (by simp)
  rw [List.append_nil] at h
  rw [h]
  rfl

/-! ### Filesystem lemmas -/

/-- Splitting at separators never yields an empty group list. -/
theorem splitSlash_ne_nil (l : List Char) : splitSlash l ≠ [] := by
  cases l with
  | nil => simp [splitSlash]
  | cons c rest =>
    rw [splitSlash]
    split_ifs
    · simp
    · cases hs : splitSlash rest <;> simp

/-- Rejoining inverts splitting at separators. -/
theorem joinSlash_splitSlash (l : List Char) : joinSlash (splitSlash l) = l := by
  induction l with
  | nil => rfl
  | cons c rest ih =>
    obtain ⟨g, gs, hsplit⟩ : ∃ g gs, splitSlash rest = g :: gs := by
      rcases hs : splitSlash rest with _ | ⟨g, gs⟩
      · exact absurd hs (splitSlash_ne_nil rest)
      · exact ⟨g, gs, rfl⟩
    rw [hsplit] at ih
    rw [splitSlash]
    split_ifs with hc
    · subst hc
      rw [hsplit]
      show ([] : List Char) ++ '/' :: joinSlash (g :: gs) = '/' :: rest
      rw [List.nil_append, ih]
    · rw [hsplit]
      cases gs with
      | nil =>
        show c :: g = c :: rest
        rw [show joinSlash [g] = g from rfl] at ih
        rw [ih]
      | cons g2 gs2 =>
        show (c :: g) ++ '/' :: joinSlash (g2 :: gs2) = c :: rest
        rw [List.cons_append, ← ih]
        rfl

/-- `os.makedirs(p)` creates `p` itself: `p` is among its own
ancestors. -/
theorem self_mem_ancestorsOf (p : String) (h : p ≠ "") : p ∈ ancestorsOf p := by
  unfold ancestorsOf
  rw [List.mem_filter]
  constructor
  · apply List.mem_map.mpr
    have hlen : 0 < (splitSlash p.data).length :=
      List.length_pos.mpr (splitSlash_ne_nil p.data)
    refine ⟨(splitSlash p.data).length - 1, List.mem_range.mpr (by omega), ?_⟩
    rw [show (splitSlash p.data).length - 1 + 1 = (splitSlash p.data).length from
      by omega]
    rw [List.take_length, joinSlash_splitSlash]
  · simpa using h

/-- Looking up a just-inserted file finds it. -/
theorem lookup_insertFile_self (fl : List (String × FData)) (p : String) (d : FData) :
    (insertFile fl p d).lookup p = some d := by
  induction fl with
  | nil => simp [insertFile, List.lookup]
  | cons pr rest ih =>
    rw [insertFile]
    split_ifs with h
    · simp [List.lookup]
    · have hbe : (p == pr.1) = false :=
        beq_eq_false_iff_ne.mpr fun he => h he.symm
      simp only [List.lookup, hbe]
      exact ih

/-- Inserting a fresh key appends it. -/
theorem insertFile_of_not_key (fl : List (String × FData)) (p : String) (d : FData)
    (h : ∀ pr ∈ fl, pr.1 ≠ p) : insertFile fl p d = fl ++ [(p, d)] := by
  induction fl with
  | nil => rfl
  | cons pr rest ih =>
    rw [insertFile]
    split_ifs with he
    · exact absurd he (h pr (by simp))
    · rw [ih fun q hq => h q (by simp [hq])]
      rfl

/-- `os.path.join` of a clean directory and a separator-free name is
the slash-joined concatenation. -/
theorem osJoin_eq (folder name : String) (h3 : folder ≠ "")
    (h4 : folder.data.getLast? ≠ some '/') (h5 : name.data.contains '/' = false) :
    osJoin folder name = folder ++ "/" ++ name := by
  unfold osJoin
  have hhead : name.data.head? ≠ some '/' := by
    cases hn : name.data with
    | nil => simp
    | cons c t =>
      have : c ≠ '/' := by
        intro he
        exact not_mem_of_contains_false h5 (he ▸ (hn ▸ List.mem_cons_self c t))
      simpa using this
  rw [if_neg hhead, if_neg h3, if_neg h4]

/-- The directory part of `folder ++ "/" ++ name` is `folder`, for a
separator-free `name` and a `folder` with no trailing separator and at
least one non-separator character. -/
theorem osDirname_join (folder name : String) (h3 : folder ≠ "")
    (h4 : folder.data.getLast? ≠ some '/') (h5 : name.data.contains '/' = false)
    (h7 : folder.data.any (fun c => c ≠ '/') = true) :
    osDirname (folder ++ "/" ++ name) = folder := by
  have hd : (folder ++ "/" ++ name).data = folder.data ++ '/' :: name.data := by
    rw [String.data_append, String.data_append, List.append_assoc]
    rfl
  have hnall : ∀ x ∈ name.data.reverse, (fun c => decide (c ≠ '/')) x = true := by
    intro x hx
    have hxm : x ∈ name.data := List.mem_reverse.mp hx
    have : x ≠ '/' := by
      intro he
      exact not_mem_of_contains_false h5 (he ▸ hxm)
    simpa using this
  unfold osDirname
  rw [hd, List.reverse_append, List.reverse_cons, List.append_assoc,
    dropWhile_append_of_all _ _ _ hnall]
  have hdw : (['/'] ++ folder.data.reverse).dropWhile (fun c => decide (c ≠ '/')) =
      '/' :: folder.data.reverse := by
    simp [List.dropWhile_cons]
  rw [hdw]
  have hnotall : ('/' :: folder.data.reverse).all (fun c => decide (c = '/')) = false := by
    obtain ⟨x, hx, hxp⟩ := List.any_eq_true.mp h7
    have hxne : x ≠ '/' := by simpa using hxp
    have hxr : x ∈ '/' :: folder.data.reverse :=
      List.mem_cons_of_mem _ (List.mem_reverse.mpr hx)
    rcases hall : ('/' :: folder.data.reverse).all (fun c => decide (c = '/')) with _ | _
    · rfl
    · exfalso
      have hx2 := List.all_eq_true.mp hall x hxr
      simp only [decide_eq_true_eq] at hx2
      exact hxne hx2
  rw [if_neg (by simp [hnotall])]
  have hlast : folder.data.reverse.dropWhile (fun c => decide (c = '/')) =
      folder.data.reverse := by
    cases hr : folder.data.reverse with
    | nil => rfl
    | cons c t =>
      have hgl := List.head?_reverse folder.data
      rw [hr] at hgl
      have hc : c ≠ '/' := by
        intro he
        apply h4
        rw [← hgl, he]
        rfl
      simp [List.dropWhile_cons, hc]
  rw [show ('/' :: folder.data.reverse).dropWhile (fun c => decide (c = '/')) =
      folder.data.reverse.dropWhile (fun c => decide (c = '/')) from by
    simp [List.dropWhile_cons]]
  rw [hlast, List.reverse_reverse]

/-- Membership gives a positive `contains`. -/
theorem contains_of_mem {l : List String} {a : String} (h : a ∈ l) :
    l.contains a = true := by
  simpa using h

/-- C9, counterexample.  `save_to_json` fails on any output path whose
directory part is empty: for `"out.json"`, `os.path.dirname` returns
`""`, `os.path.exists("")` is false, and `os.makedirs("")` raises
`FileNotFoundError` — even though the current working directory exists
and the write itself would have succeeded.  So the claim's "for every
output path" is false. -/
theorem claim_C9_counterexample :
    osDirname "out.json" = "" ∧
    save_to_json ⟨["rec"], []⟩ (JsonVal.num 0) "out.json" =
      Except.error "FileNotFoundError" := by
  constructor
  · rfl
  · rfl

/-- C9, amended claim theorem.  For every structured value and every
output path *whose directory part is non-empty* (and which is either
missing or an existing directory), `save_to_json` succeeds: it
auto-creates the missing parent directory, writes the value as the
pretty-printed 4-space-indented JSON text `dumps data`, and reading
the file back with `json.load` yields an equal value. -/
theorem claim_C9 :
    ∀ (fs : FS) (data : JsonVal) (path : String),
      osDirname path ≠ "" →
      (FS.pathExists fs (osDirname path) = false ∨
        fs.dirs.contains (osDirname path) = true) →
      ∃ fs2 : FS, save_to_json fs data path = Except.ok fs2 ∧
        fs2.dirs.contains (osDirname path) = true ∧
        fs2.files.lookup path = some (FData.text (dumps data)) ∧
        load_from_json fs2 path = some data := by
  intro fs data path h1 h2
  obtain ⟨fs1, hstep, hdir1⟩ :
      ∃ fs1 : FS, (if FS.pathExists fs (osDirname path) then Except.ok fs
          else FS.makedirs fs (osDirname path)) = Except.ok fs1 ∧
        fs1.dirs.contains (osDirname path) = true := by
    rcases h2 with h2 | h2
    · refine ⟨{ fs with
          dirs := fs.dirs ++ (ancestorsOf (osDirname path)).filter (fun d => ¬ fs.dirs.contains d) },
        ?_, ?_⟩
      · rw [if_neg (by simp [h2]), FS.makedirs, if_neg h1]
      · have hcf : fs.dirs.contains (osDirname path) = false := by
          unfold FS.pathExists at h2
          rcases Bool.or_eq_false_iff.mp h2 with ⟨ha, _⟩
          exact ha
        have hnm : osDirname path ∉ fs.dirs := fun hm => by
          rw [contains_of_mem hm] at hcf
          cases hcf
        have hmem : osDirname path ∈ (ancestorsOf (osDirname path)).filter
            (fun d => ¬ fs.dirs.contains d) := by
          rw [List.mem_filter]
          exact ⟨self_mem_ancestorsOf _ h1, by simp [hnm]⟩
        exact contains_of_mem (List.mem_append_right _ hmem)
    · exact ⟨fs, by rw [if_pos (by simp only [FS.pathExists, h2, Bool.true_or])], h2⟩
  refine ⟨⟨fs1.dirs, insertFile fs1.files path (FData.text (dumps data))⟩, ?_, hdir1,
    lookup_insertFile_self fs1.files path _, ?_⟩
  · simp only [save_to_json]
    split
    next h =>
      rw [if_pos h] at hstep
      injection hstep with h2
      subst h2
      show FS.writeFile fs path (FData.text (dumps data)) = _
      unfold FS.writeFile
      rw [if_neg h1, if_pos hdir1]
    next h =>
      rw [if_neg h] at hstep
      rw [hstep]
      show FS.writeFile fs1 path (FData.text (dumps data)) = _
      unfold FS.writeFile
      rw [if_neg h1, if_pos hdir1]
  · unfold load_from_json FS.readFile
    simp only []
    rw [lookup_insertFile_self]
    exact loads_dumps data

/-- Witness for C9 at a concrete filesystem, value and path. -/
theorem claim_C9_witness :
    osDirname "records/out.json" ≠ "" ∧
    FS.pathExists ⟨[], []⟩ (osDirname "records/out.json") = false ∧
    ∃ fs2 : FS,
      save_to_json ⟨[], []⟩ (JsonVal.str "ok") "records/out.json" = Except.ok fs2 ∧
      fs2.dirs.contains (osDirname "records/out.json") = true ∧
      fs2.files.lookup "records/out.json" =
        some (FData.text (dumps (JsonVal.str "ok"))) ∧
      load_from_json fs2 "records/out.json" = some (JsonVal.str "ok") :=
  ⟨by decide, by decide,
    claim_C9 ⟨[], []⟩ (JsonVal.str "ok") "records/out.json" (by decide)
      (Or.inl (by decide))⟩

/-- `Except.ok` is a left unit for bind. -/
theorem except_bind_ok {α β ε : Type} (a : α) (f : α → Except ε β) :
    (Except.ok a >>= f) = f a := rfl

/-- One-step unfolding of `unzip_file` once the folder-preparation step
and the archive lookup are known. -/
theorem unzip_file_eq (fs fs1 : FS) (zipPath : String) (es : List (String × String))
    (hstep : (if FS.pathExists fs (splitextRoot zipPath) then Except.ok fs
        else FS.makedirs fs (splitextRoot zipPath)) = Except.ok fs1)
    (hz : fs1.files.lookup zipPath = some (FData.zip es)) :
    unzip_file fs zipPath =
      match FS.listdir (extractAll fs1 (splitextRoot zipPath) es) (splitextRoot zipPath) with
      | [] => Except.error "IndexError"
      | first :: _ => Except.ok (osJoin (splitextRoot zipPath) first,
          extractAll fs1 (splitextRoot zipPath) es) := by
  simp only [unzip_file]
  split
  next h =>
    rw [if_pos h] at hstep
    injection hstep with h2
    subst h2
    simp only [except_bind_ok]
    rw [hz]
  next h =>
    rw [if_neg h] at hstep
    rw [hstep]
    simp only [except_bind_ok]
    rw [hz]

/-- C10, counterexample.  `unzip_file` returns the FIRST entry of
`os.listdir` on the extraction folder, not the extracted member: when
the sibling folder already exists and holds another file that sorts
before the extracted one, `unzip_and_read_file` returns that other
file's content.  Here `a.zip` holds exactly one file `b.txt` with text
`"hello"`, but the pre-existing `a/a.txt` (content `"other"`) is listed
first, so the claim's "returns that file's exact text content" is
false. -/
theorem claim_C10_counterexample :
    unzip_and_read_file
        ⟨["a"], [("a/a.txt", FData.text "other"), ("a.zip", FData.zip [("b.txt", "hello")])]⟩
        "a.zip" = Except.ok "other" ∧
    ("other" : String) ≠ "hello" := by
  constructor
  · rfl
  · decide

/-- C10, amended claim theorem.  When the sibling extraction folder
(the archive path without its extension) does not yet exist — so that
the directory listing can only contain what was just extracted —
`unzip_file` creates the folder, extracts the archive's single member
into it, and returns that member's path; `unzip_and_read_file` then
returns the member's exact text content.  (The side hypotheses pin the
well-formed shape: non-empty separator-free member name, folder not
ending in a separator, and no pre-existing entry of the filesystem
sitting directly inside the folder.) -/
theorem claim_C10 :
    ∀ (fs : FS) (zipPath name content folder : String),
      folder = splitextRoot zipPath →
      fs.files.lookup zipPath = some (FData.zip [(name, content)]) →
      FS.pathExists fs folder = false →
      folder ≠ "" →
      folder.data.getLast? ≠ some '/' →
      name.data.contains '/' = false →
      folder.data.any (fun c => c ≠ '/') = true →
      (∀ pr ∈ fs.files, osDirname pr.1 ≠ folder) →
      (∀ d ∈ fs.dirs, osDirname d ≠ folder) →
      (∀ d ∈ ancestorsOf folder, osDirname d ≠ folder) →
      ∃ fs2 : FS,
        unzip_file fs zipPath = Except.ok (osJoin folder name, fs2) ∧
        fs2.dirs.contains folder = true ∧
        fs2.files.lookup (osJoin folder name) = some (FData.text content) ∧
        unzip_and_read_file fs zipPath = Except.ok content := by
  intro fs zipPath name content folder hfold hz hpe h3 h4 h5 h7 hfiles hdirs hanc
  subst hfold
  have hjoin_dir : osDirname (osJoin (splitextRoot zipPath) name) = splitextRoot zipPath := by
    rw [osJoin_eq _ _ h3 h4 h5]
    exact osDirname_join _ _ h3 h4 h5 h7
  have hstep : (if FS.pathExists fs (splitextRoot zipPath) then Except.ok fs
      else FS.makedirs fs (splitextRoot zipPath)) =
      Except.ok ⟨fs.dirs ++ (ancestorsOf (splitextRoot zipPath)).filter
        (fun d => ¬ fs.dirs.contains d), fs.files⟩ := by
    rw [if_neg (by simp [hpe]), FS.makedirs, if_neg h3]
  have hkeys : ∀ pr ∈ fs.files, pr.1 ≠ osJoin (splitextRoot zipPath) name := by
    intro pr hpr he
    exact hfiles pr hpr (by rw [he, hjoin_dir])
  have hins : insertFile fs.files (osJoin (splitextRoot zipPath) name) (FData.text content) =
      fs.files ++ [(osJoin (splitextRoot zipPath) name, FData.text content)] :=
    insertFile_of_not_key _ _ _ hkeys
  have hext : extractAll
      ⟨fs.dirs ++ (ancestorsOf (splitextRoot zipPath)).filter
        (fun d => ¬ fs.dirs.contains d), fs.files⟩
      (splitextRoot zipPath) [(name, content)] =
      ⟨fs.dirs ++ (ancestorsOf (splitextRoot zipPath)).filter
        (fun d => ¬ fs.dirs.contains d),
       insertFile fs.files (osJoin (splitextRoot zipPath) name) (FData.text content)⟩ := rfl
  have hlist : FS.listdir
      ⟨fs.dirs ++ (ancestorsOf (splitextRoot zipPath)).filter
        (fun d => ¬ fs.dirs.contains d),
       insertFile fs.files (osJoin (splitextRoot zipPath) name) (FData.text content)⟩
      (splitextRoot zipPath) = [name] := by
    simp only [FS.listdir]
    rw [hins, List.map_append, List.filter_append, List.map_append, List.filter_append]
    have hnil1 : (fs.files.map Prod.fst).filter
        (fun p => osDirname p = splitextRoot zipPath) = [] := by
      rw [List.filter_eq_nil_iff]
      intro a ha
      rcases List.mem_map.mp ha with ⟨pr, hpr, hpe2⟩
      simp only [decide_eq_true_eq]
      rw [← hpe2]
      exact hfiles pr hpr
    have hone : ([(osJoin (splitextRoot zipPath) name, FData.text content)].map Prod.fst).filter
        (fun p => osDirname p = splitextRoot zipPath) =
        [osJoin (splitextRoot zipPath) name] := by
      simp [hjoin_dir]
    have hnil2 : fs.dirs.filter (fun p => osDirname p = splitextRoot zipPath) = [] := by
      rw [List.filter_eq_nil_iff]
      intro a ha
      simp only [decide_eq_true_eq]
      exact hdirs a ha
    have hnil3 : ((ancestorsOf (splitextRoot zipPath)).filter
        (fun d => ¬ fs.dirs.contains d)).filter
        (fun p => osDirname p = splitextRoot zipPath) = [] := by
      rw [List.filter_eq_nil_iff]
      intro a ha
      simp only [decide_eq_true_eq]
      exact hanc a (List.mem_filter.mp ha).1
    rw [hnil1, hone, hnil2, hnil3]
    simp only [List.map_nil, List.map_cons, List.nil_append, List.append_nil,
      osBasename_osJoin _ _ h5]
    rw [List.dedup_cons_of_not_mem (List.not_mem_nil name), List.dedup_nil]
    rfl
  refine ⟨⟨fs.dirs ++ (ancestorsOf (splitextRoot zipPath)).filter
      (fun d => ¬ fs.dirs.contains d),
    insertFile fs.files (osJoin (splitextRoot zipPath) name) (FData.text content)⟩,
    ?_, ?_, lookup_insertFile_self fs.files _ _, ?_⟩
  · rw [unzip_file_eq fs _ zipPath [(name, content)] hstep hz, hext, hlist]
  · have hcf : fs.dirs.contains (splitextRoot zipPath) = false := by
      unfold FS.pathExists at hpe
      rcases Bool.or_eq_false_iff.mp hpe with ⟨ha, _⟩
      exact ha
    have hnm : splitextRoot zipPath ∉ fs.dirs := fun hm => by
      rw [contains_of_mem hm] at hcf
      cases hcf
    have hmem : splitextRoot zipPath ∈ (ancestorsOf (splitextRoot zipPath)).filter
        (fun d => ¬ fs.dirs.contains d) := by
      rw [List.mem_filter]
      exact ⟨self_mem_ancestorsOf _ h3, by simp [hnm]⟩
    exact contains_of_mem (List.mem_append_right _ hmem)
  · simp only [unzip_and_read_file]
    rw [unzip_file_eq fs _ zipPath [(name, content)] hstep hz, hext, hlist]
    simp only []
    show FS.readFile _ (osJoin (splitextRoot zipPath) name) = Except.ok content
    unfold FS.readFile
    rw [lookup_insertFile_self]

/-- Witness for C10 at a concrete filesystem and single-member archive. -/
theorem claim_C10_witness :
    ("plan" : String) = splitextRoot "plan.zip" ∧
    ∃ fs2 : FS,
      unzip_file ⟨[], [("plan.zip", FData.zip [("doc.txt", "hello")])]⟩ "plan.zip" =
        Except.ok (osJoin "plan" "doc.txt", fs2) ∧
      fs2.dirs.contains "plan" = true ∧
      fs2.files.lookup (osJoin "plan" "doc.txt") = some (FData.text "hello") ∧
      unzip_and_read_file ⟨[], [("plan.zip", FData.zip [("doc.txt", "hello")])]⟩
        "plan.zip" = Except.ok "hello" :=
  ⟨by decide,
    claim_C10 ⟨[], [("plan.zip", FData.zip [("doc.txt", "hello")])]⟩ "plan.zip"
      "doc.txt" "hello" "plan" (by decide) (by decide) (by decide) (by decide)
      (by decide) (by decide) (by decide) (by decide) (by decide) (by decide)⟩

end UFO
